import Mathlib

/-!
Verification of the maze generator, collision resolver and NPC behaviour
automaton of `MazeRunnerPOLICE.cpp` against its specification.

The C++ source is shallowly embedded: the fixed-size `Cell grid[W][H]` with its
`visited` flag and `bool walls[4]` becomes a pair of functions over integer
coordinates, the global `rand()` stream becomes an explicit stream `r : Nat → Nat`
together with a counter threaded through every drawing operation, and the
`Generate` while-loop becomes a fuel-indexed iteration of a single-step function.
Floating point arithmetic of the movement / collision code is idealised over an
ordered field (rationals for executable instances, reals where `sqrtf` appears).
-/

namespace MazeR

/-- A cell coordinate on the maze grid, as in `struct Cell { int x, y; }`. -/
abbrev Pos := ℤ × ℤ

/-- The wall state of the whole grid: for each cell its `bool walls[4]`,
index 0 = Top (the `y+1` side), 1 = Right (the `x+1` side),
2 = Bottom (the `y-1` side), 3 = Left (the `x-1` side).  `true` = wall present. -/
abbrev Walls := Pos → Fin 4 → Bool

/-- The start cell `grid[0][0]` of `Generate`. -/
def origin : Pos := (0, 0)

/-- The bounds test of `MazeGenerator::GetCell`:
`x >= 0 && x < MAZE_WIDTH && y >= 0 && y < MAZE_HEIGHT`. -/
def inB (W H : ℕ) (c : Pos) : Prop :=
  0 ≤ c.1 ∧ c.1 < (W : ℤ) ∧ 0 ≤ c.2 ∧ c.2 < (H : ℤ)

instance (W H : ℕ) (c : Pos) : Decidable (inB W H c) := by
  unfold inB; infer_instance

/-- The neighbour of a cell across the wall with index `d`. -/
def nbrOf (c : Pos) (d : Fin 4) : Pos :=
  if d = 0 then (c.1, c.2 + 1)
  else if d = 1 then (c.1 + 1, c.2)
  else if d = 2 then (c.1, c.2 - 1)
  else (c.1 - 1, c.2)

/-- The index of the same wall seen from the neighbouring cell. -/
def oppDir (d : Fin 4) : Fin 4 :=
  if d = 0 then 2 else if d = 1 then 3 else if d = 2 then 0 else 1

/-- Clear a single wall flag of a single cell (one `cell->walls[i] = false`). -/
def setWall (w : Walls) (c : Pos) (d : Fin 4) : Walls :=
  fun p e => if p = c ∧ e = d then false else w p e

/-- `MazeGenerator::RemoveWall`: compare the integer coordinate deltas of the
two cells and clear the two facing wall flags. -/
def removeWall (w : Walls) (cur next : Pos) : Walls :=
  let dx := cur.1 - next.1
  let dy := cur.2 - next.2
  let w1 :=
    if dx = 1 then setWall (setWall w cur 3) next 1
    else if dx = -1 then setWall (setWall w cur 1) next 3
    else w
  if dy = 1 then setWall (setWall w1 cur 2) next 0
  else if dy = -1 then setWall (setWall w1 cur 0) next 2
  else w1

/-- `MazeGenerator::GetUnvisitedNeighbour`, the list-building part: collect the
in-bounds unvisited neighbours in the order the code pushes them
(`y+1`, `x+1`, `y-1`, `x-1`). -/
def unvisitedNeighbours (W H : ℕ) (vis : Pos → Bool) (c : Pos) : List Pos :=
  (if c.2 + 1 < (H : ℤ) ∧ vis (c.1, c.2 + 1) = false then [(c.1, c.2 + 1)] else []) ++
  (if c.1 + 1 < (W : ℤ) ∧ vis (c.1 + 1, c.2) = false then [(c.1 + 1, c.2)] else []) ++
  (if 0 ≤ c.2 - 1 ∧ vis (c.1, c.2 - 1) = false then [(c.1, c.2 - 1)] else []) ++
  (if 0 ≤ c.1 - 1 ∧ vis (c.1 - 1, c.2) = false then [(c.1 - 1, c.2)] else [])

/-- The mutable state of `MazeGenerator::Generate`: the current cell, the
explicit backtracking stack (head = top), the `visited` flags, the wall flags,
and the position `k` in the global `rand()` stream. -/
structure GenState where
  cur : Pos
  stack : List Pos
  visited : Pos → Bool
  walls : Walls
  k : ℕ

/-- The element `neighbours[rand() % neighbours.size()]` picked from a
non-empty neighbour list, with `rand()` drawn at stream position `k`. -/
def pick (r : ℕ → ℕ) (k : ℕ) (a : Pos) (as : List Pos) : Pos :=
  (a :: as).get ⟨r k % (a :: as).length, Nat.mod_lt _ (Nat.succ_pos _)⟩

/-- One iteration of the `while (!pathStack.empty())` body of `Generate`, split
on the neighbour list computed by `GetUnvisitedNeighbour`. -/
def stepAux (r : ℕ → ℕ) (s : GenState) : List Pos → GenState
  | [] =>
    match s.stack with
    | [] => s
    | t :: rest => { s with cur := t, stack := rest }
  | a :: as =>
    let nxt := pick r s.k a as
    { cur := nxt
      stack := s.cur :: s.stack
      visited := Function.update s.visited nxt true
      walls := removeWall s.walls s.cur nxt
      k := s.k + 1 }

/-- One iteration of the `while (!pathStack.empty())` body of `Generate`
(to be applied only when the stack is non-empty): pick an unvisited neighbour
with `rand() % size` if one exists, remove the shared wall, mark it visited,
push the current cell and move to the neighbour; otherwise pop to backtrack. -/
def step (W H : ℕ) (r : ℕ → ℕ) (s : GenState) : GenState :=
  stepAux r s (unvisitedNeighbours W H s.visited s.cur)

/-- The `while` loop of `Generate`, driven by fuel (the loop terminates; a
sufficient fuel bound is proved below and used by `generate`). -/
def generateLoop (W H : ℕ) (r : ℕ → ℕ) : ℕ → GenState → GenState
  | 0, s => s
  | n + 1, s => if s.stack = [] then s else generateLoop W H r n (step W H r s)

/-- The state right after `Initialize()` plus the first three lines of
`Generate()`: all walls present, only `(0,0)` visited, `(0,0)` pushed. -/
def initState : GenState :=
  { cur := origin
    stack := [origin]
    visited := Function.update (fun _ => false) origin true
    walls := fun _ _ => true
    k := 0 }

/-- `Initialize()` followed by a full run of `Generate()` with RNG stream `r`
(starting at stream position 0). -/
def generate (W H : ℕ) (r : ℕ → ℕ) : GenState :=
  generateLoop W H r (2 * W * H) initState

/-- The finset of all in-bounds cells of a `W×H` grid. -/
def cellsF (W H : ℕ) : Finset Pos := (Finset.Ico 0 (W : ℤ)) ×ˢ (Finset.Ico 0 (H : ℤ))

/-- Number of in-bounds cells currently marked visited. -/
def visitedCount (W H : ℕ) (vis : Pos → Bool) : ℕ :=
  ((cellsF W H).filter (fun c => vis c = true)).card

/-- Number of in-bounds cells not yet visited. -/
def unvisCount (W H : ℕ) (vis : Pos → Bool) : ℕ :=
  ((cellsF W H).filter (fun c => vis c = false)).card

/-- Each open passage of the maze counted exactly once: the finset of pairs
`(cell, d)` with `d ∈ {0,1}` (so every unordered adjacent pair is represented
by exactly one slot, on its Top/Right side), the `d`-neighbour in bounds, and
the shared wall absent on both of its sides. -/
def openNE (W H : ℕ) (w : Walls) : Finset (Pos × Fin 4) :=
  ((cellsF W H) ×ˢ ({0, 1} : Finset (Fin 4))).filter
    (fun q => inB W H (nbrOf q.1 q.2) ∧
      w q.1 q.2 = false ∧ w (nbrOf q.1 q.2) (oppDir q.2) = false)

/-- Two cells joined by an open passage: `n` is the `d`-neighbour of `c` for
some direction `d` and the shared wall is absent on both sides. -/
def openPassage (w : Walls) (c n : Pos) : Prop :=
  ∃ d : Fin 4, n = nbrOf c d ∧ w c d = false ∧ w n (oppDir d) = false

/-- Flood fill from `(0,0)` along open passages through in-bounds cells:
the set of cells a breadth-first search over open walls reaches. -/
inductive Reach (W H : ℕ) (w : Walls) : Pos → Prop where
  | base : Reach W H w origin
  | step {c n : Pos} : Reach W H w c → inB W H n → openPassage w c n → Reach W H w n

/-! ### Basic lemmas about the grid geometry -/

theorem mem_cellsF {W H : ℕ} {c : Pos} : c ∈ cellsF W H ↔ inB W H c := by
  cases c with
  | mk x y =>
    simp [cellsF, inB, Finset.mem_product, Finset.mem_Ico, and_assoc]

theorem nbrOf_nbrOf_oppDir (c : Pos) (d : Fin 4) : nbrOf (nbrOf c d) (oppDir d) = c := by
  fin_cases d <;> simp [nbrOf, oppDir]

theorem oppDir_oppDir (d : Fin 4) : oppDir (oppDir d) = d := by
  fin_cases d <;> simp [oppDir]

theorem fin4_eq (d : Fin 4) : d = 0 ∨ d = 1 ∨ d = 2 ∨ d = 3 := by
  fin_cases d <;> decide

theorem nbrOf_ne (c : Pos) (d : Fin 4) : nbrOf c d ≠ c := by
  rcases fin4_eq d with rfl | rfl | rfl | rfl <;> simp [nbrOf, Prod.ext_iff]

theorem nbrOf_e0 (c : Pos) : nbrOf c 0 = (c.1, c.2 + 1) := by simp [nbrOf]

theorem nbrOf_e1 (c : Pos) : nbrOf c 1 = (c.1 + 1, c.2) := by simp [nbrOf]

theorem nbrOf_e2 (c : Pos) : nbrOf c 2 = (c.1, c.2 - 1) := by simp [nbrOf]

theorem nbrOf_e3 (c : Pos) : nbrOf c 3 = (c.1 - 1, c.2) := by simp [nbrOf]

theorem setWall_apply (w : Walls) (c : Pos) (d : Fin 4) (p : Pos) (e : Fin 4) :
    setWall w c d p e = if p = c ∧ e = d then false else w p e := rfl

theorem removeWall_north (w : Walls) (c : Pos) :
    removeWall w c (c.1, c.2 + 1) = setWall (setWall w c 0) (c.1, c.2 + 1) 2 := by
  simp only [removeWall]
  norm_num

theorem removeWall_east (w : Walls) (c : Pos) :
    removeWall w c (c.1 + 1, c.2) = setWall (setWall w c 1) (c.1 + 1, c.2) 3 := by
  simp only [removeWall]
  norm_num

theorem removeWall_south (w : Walls) (c : Pos) :
    removeWall w c (c.1, c.2 - 1) = setWall (setWall w c 2) (c.1, c.2 - 1) 0 := by
  simp only [removeWall]
  norm_num

theorem removeWall_west (w : Walls) (c : Pos) :
    removeWall w c (c.1 - 1, c.2) = setWall (setWall w c 3) (c.1 - 1, c.2) 1 := by
  simp only [removeWall]
  norm_num

/-- Pointwise effect of `RemoveWall` on a cell and its `d`-neighbour: exactly
the two facing flags are cleared. -/
theorem removeWall_nbr_apply (w : Walls) (c : Pos) (d : Fin 4) (p : Pos) (e : Fin 4) :
    removeWall w c (nbrOf c d) p e =
      if (p = c ∧ e = d) ∨ (p = nbrOf c d ∧ e = oppDir d) then false else w p e := by
  rcases fin4_eq d with rfl | rfl | rfl | rfl
  · rw [nbrOf_e0, removeWall_north, setWall_apply, setWall_apply,
      show oppDir 0 = 2 from rfl]
    split_ifs <;> tauto
  · rw [nbrOf_e1, removeWall_east, setWall_apply, setWall_apply,
      show oppDir 1 = 3 from rfl]
    split_ifs <;> tauto
  · rw [nbrOf_e2, removeWall_south, setWall_apply, setWall_apply,
      show oppDir 2 = 0 from rfl]
    split_ifs <;> tauto
  · rw [nbrOf_e3, removeWall_west, setWall_apply, setWall_apply,
      show oppDir 3 = 1 from rfl]
    split_ifs <;> tauto

end MazeR

namespace MazeR

theorem removeWall_flip (w : Walls) (c : Pos) (d : Fin 4) :
    removeWall w c (nbrOf c d) =
      removeWall w (nbrOf c d) (nbrOf (nbrOf c d) (oppDir d)) := by
  funext p e
  rw [removeWall_nbr_apply, removeWall_nbr_apply, nbrOf_nbrOf_oppDir, oppDir_oppDir]
  split_ifs <;> tauto

/-- Membership in the neighbour list of `GetUnvisitedNeighbour` implies:
unvisited, in bounds, and a grid neighbour of `c`. -/
theorem mem_unvisitedNeighbours {W H : ℕ} {vis : Pos → Bool} {c p : Pos}
    (hc : inB W H c) (hp : p ∈ unvisitedNeighbours W H vis c) :
    vis p = false ∧ inB W H p ∧ ∃ d, p = nbrOf c d := by
  obtain ⟨hx0, hx1, hy0, hy1⟩ := hc
  simp only [unvisitedNeighbours, List.mem_append] at hp
  rcases hp with ((h | h) | h) | h
  · split_ifs at h with hcond
    · simp only [List.mem_singleton] at h
      subst h
      exact ⟨hcond.2, ⟨hx0, hx1, by omega, hcond.1⟩, 0, (nbrOf_e0 c).symm⟩
    · simp at h
  · split_ifs at h with hcond
    · simp only [List.mem_singleton] at h
      subst h
      exact ⟨hcond.2, ⟨by omega, hcond.1, hy0, hy1⟩, 1, (nbrOf_e1 c).symm⟩
    · simp at h
  · split_ifs at h with hcond
    · simp only [List.mem_singleton] at h
      subst h
      exact ⟨hcond.2, ⟨hx0, hx1, hcond.1, by omega⟩, 2, (nbrOf_e2 c).symm⟩
    · simp at h
  · split_ifs at h with hcond
    · simp only [List.mem_singleton] at h
      subst h
      exact ⟨hcond.2, ⟨hcond.1, by omega, hy0, hy1⟩, 3, (nbrOf_e3 c).symm⟩
    · simp at h

/-- When `GetUnvisitedNeighbour` finds nothing, every in-bounds neighbour is
visited. -/
theorem unvisitedNeighbours_nil {W H : ℕ} {vis : Pos → Bool} {c : Pos}
    (hc : inB W H c) (h : unvisitedNeighbours W H vis c = []) (d : Fin 4)
    (hn : inB W H (nbrOf c d)) : vis (nbrOf c d) = true := by
  obtain ⟨hx0, hx1, hy0, hy1⟩ := hc
  simp only [unvisitedNeighbours, List.append_eq_nil] at h
  obtain ⟨⟨⟨h0, h1⟩, h2⟩, h3⟩ := h
  rcases fin4_eq d with rfl | rfl | rfl | rfl
  · rw [nbrOf_e0] at hn ⊢
    by_contra hfalse
    rw [if_pos ⟨hn.2.2.2, Bool.not_eq_true _ ▸ hfalse⟩] at h0
    simp at h0
  · rw [nbrOf_e1] at hn ⊢
    by_contra hfalse
    rw [if_pos ⟨hn.2.1, Bool.not_eq_true _ ▸ hfalse⟩] at h1
    simp at h1
  · rw [nbrOf_e2] at hn ⊢
    by_contra hfalse
    rw [if_pos ⟨hn.2.2.1, Bool.not_eq_true _ ▸ hfalse⟩] at h2
    simp at h2
  · rw [nbrOf_e3] at hn ⊢
    by_contra hfalse
    rw [if_pos ⟨hn.1, Bool.not_eq_true _ ▸ hfalse⟩] at h3
    simp at h3

theorem pick_mem (r : ℕ → ℕ) (k : ℕ) (a : Pos) (as : List Pos) :
    pick r k a as ∈ a :: as := List.get_mem _ _ _

/-- The move branch of the loop body. -/
theorem step_move {W H : ℕ} (r : ℕ → ℕ) {s : GenState} {a : Pos} {as : List Pos}
    (h : unvisitedNeighbours W H s.visited s.cur = a :: as) :
    step W H r s =
      { cur := pick r s.k a as
        stack := s.cur :: s.stack
        visited := Function.update s.visited (pick r s.k a as) true
        walls := removeWall s.walls s.cur (pick r s.k a as)
        k := s.k + 1 } := by
  rw [step, h]
  rfl

/-- The backtrack branch of the loop body. -/
theorem step_pop {W H : ℕ} (r : ℕ → ℕ) {s : GenState} {t : Pos} {rest : List Pos}
    (h : unvisitedNeighbours W H s.visited s.cur = []) (hs : s.stack = t :: rest) :
    step W H r s = { s with cur := t, stack := rest } := by
  rw [step, h, stepAux, hs]

theorem generateLoop_nil {W H : ℕ} (r : ℕ → ℕ) (n : ℕ) {s : GenState}
    (h : s.stack = []) : generateLoop W H r n s = s := by
  cases n with
  | zero => rfl
  | succ m => rw [generateLoop, if_pos h]

theorem generateLoop_cons {W H : ℕ} (r : ℕ → ℕ) (n : ℕ) {s : GenState}
    (h : s.stack ≠ []) :
    generateLoop W H r (n + 1) s = generateLoop W H r n (step W H r s) := by
  rw [generateLoop, if_neg h]

end MazeR

namespace MazeR

theorem visitedCount_update {W H : ℕ} {vis : Pos → Bool} {n : Pos}
    (hn : inB W H n) (hv : vis n = false) :
    visitedCount W H (Function.update vis n true) = visitedCount W H vis + 1 := by
  unfold visitedCount
  have hset : (cellsF W H).filter (fun c => Function.update vis n true c = true) =
      insert n ((cellsF W H).filter (fun c => vis c = true)) := by
    ext c
    simp only [Finset.mem_insert, Finset.mem_filter, Function.update_apply]
    constructor
    · rintro ⟨hcell, hval⟩
      by_cases hcn : c = n
      · exact Or.inl hcn
      · rw [if_neg hcn] at hval
        exact Or.inr ⟨hcell, hval⟩
    · rintro (rfl | ⟨hcell, hval⟩)
      · exact ⟨mem_cellsF.mpr hn, by rw [if_pos rfl]⟩
      · refine ⟨hcell, ?_⟩
        by_cases hcn : c = n
        · rw [if_pos hcn]
        · rw [if_neg hcn]; exact hval
  rw [hset, Finset.card_insert_of_not_mem]
  simp only [Finset.mem_filter]
  rintro ⟨-, hval⟩
  rw [hv] at hval
  exact Bool.false_ne_true hval

theorem unvisCount_update {W H : ℕ} {vis : Pos → Bool} {n : Pos}
    (hn : inB W H n) (hv : vis n = false) :
    unvisCount W H (Function.update vis n true) + 1 = unvisCount W H vis := by
  unfold unvisCount
  have hset : (cellsF W H).filter (fun c => Function.update vis n true c = false) =
      ((cellsF W H).filter (fun c => vis c = false)).erase n := by
    ext c
    simp only [Finset.mem_erase, Finset.mem_filter, Function.update_apply]
    constructor
    · rintro ⟨hcell, hval⟩
      by_cases hcn : c = n
      · rw [if_pos hcn] at hval; exact absurd hval (by simp)
      · rw [if_neg hcn] at hval
        exact ⟨hcn, hcell, hval⟩
    · rintro ⟨hcn, hcell, hval⟩
      refine ⟨hcell, ?_⟩
      rw [if_neg hcn]
      exact hval
  rw [hset, Finset.card_erase_add_one]
  simp only [Finset.mem_filter]
  exact ⟨mem_cellsF.mpr hn, hv⟩

/-- The wall seen from the other side: `(nbrOf p e, oppDir e)` is the slot
`(c, d)` exactly when `(p, e)` is the slot `(nbrOf c d, oppDir d)`. -/
theorem facing_eq_iff {p c : Pos} {e d : Fin 4} :
    (nbrOf p e = c ∧ oppDir e = d) ↔ (p = nbrOf c d ∧ e = oppDir d) := by
  constructor
  · rintro ⟨rfl, rfl⟩
    exact ⟨(nbrOf_nbrOf_oppDir p e).symm, (oppDir_oppDir e).symm⟩
  · rintro ⟨rfl, rfl⟩
    exact ⟨nbrOf_nbrOf_oppDir c d, oppDir_oppDir d⟩

/-- After `RemoveWall` between `c` and its `d`-neighbour, a passage is open on
both sides exactly when it is one of the two freshly cleared orientations or it
was already open on both sides. -/
theorem removeWall_pair_false_iff {w : Walls} {c p : Pos} {d e : Fin 4} :
    (removeWall w c (nbrOf c d) p e = false ∧
      removeWall w c (nbrOf c d) (nbrOf p e) (oppDir e) = false) ↔
    ((p = c ∧ e = d) ∨ (p = nbrOf c d ∧ e = oppDir d) ∨
      (w p e = false ∧ w (nbrOf p e) (oppDir e) = false)) := by
  rw [removeWall_nbr_apply, removeWall_nbr_apply]
  constructor
  · rintro ⟨h1, h2⟩
    by_cases hA : p = c ∧ e = d
    · exact Or.inl hA
    by_cases hB : p = nbrOf c d ∧ e = oppDir d
    · exact Or.inr (Or.inl hB)
    rw [if_neg (by tauto)] at h1
    rw [if_neg ?hfc] at h2
    · exact Or.inr (Or.inr ⟨h1, h2⟩)
    case hfc =>
      rintro (h | ⟨h3, h4⟩)
      · exact hB (facing_eq_iff.mp h)
      · apply hA
        have he : e = d := by
          have h5 := congrArg oppDir h4
          rwa [oppDir_oppDir, oppDir_oppDir] at h5
        subst he
        refine ⟨?_, rfl⟩
        have h6 := congrArg (fun q => nbrOf q (oppDir e)) h3
        simpa only [nbrOf_nbrOf_oppDir] using h6
  · rintro (⟨rfl, rfl⟩ | ⟨rfl, rfl⟩ | ⟨h1, h2⟩)
    · exact ⟨by rw [if_pos (Or.inl ⟨rfl, rfl⟩)],
        by rw [if_pos (Or.inr ⟨rfl, rfl⟩)]⟩
    · exact ⟨by rw [if_pos (Or.inr ⟨rfl, rfl⟩)],
        by rw [if_pos (Or.inl ⟨nbrOf_nbrOf_oppDir c d, oppDir_oppDir d⟩)]⟩
    · constructor <;> split_ifs <;> first | rfl | assumption

/-- Opening a North (`d = 0`) or East (`d = 1`) passage adds exactly one slot
to the open-passage count. -/
theorem openNE_removeWall_card {W H : ℕ} {w : Walls} {c : Pos} {d : Fin 4}
    (hd : d = 0 ∨ d = 1) (hc : inB W H c) (hn : inB W H (nbrOf c d))
    (hcw : w c d = true) :
    (openNE W H (removeWall w c (nbrOf c d))).card = (openNE W H w).card + 1 := by
  have hset : openNE W H (removeWall w c (nbrOf c d)) = insert (c, d) (openNE W H w) := by
    ext q
    obtain ⟨p, e⟩ := q
    simp only [openNE, Finset.mem_insert, Finset.mem_filter, Finset.mem_product, mem_cellsF,
      Finset.mem_singleton, Prod.mk.injEq]
    constructor
    · rintro ⟨⟨hpc, he⟩, hnb, hw1, hw2⟩
      rcases removeWall_pair_false_iff.mp ⟨hw1, hw2⟩ with ⟨rfl, rfl⟩ | ⟨rfl, rfl⟩ | ⟨h1, h2⟩
      · exact Or.inl ⟨rfl, rfl⟩
      · exfalso
        rcases hd with rfl | rfl <;> exact absurd he (by decide)
      · exact Or.inr ⟨⟨hpc, he⟩, hnb, h1, h2⟩
    · rintro (⟨rfl, rfl⟩ | ⟨⟨hpc, he⟩, hnb, hw1, hw2⟩)
      · refine ⟨⟨hc, ?_⟩, hn, ?_⟩
        · rcases hd with rfl | rfl <;> decide
        · exact removeWall_pair_false_iff.mpr (Or.inl ⟨rfl, rfl⟩)
      · exact ⟨⟨hpc, he⟩, hnb,
          removeWall_pair_false_iff.mpr (Or.inr (Or.inr ⟨hw1, hw2⟩))⟩
  rw [hset, Finset.card_insert_of_not_mem]
  simp only [openNE, Finset.mem_filter]
  rintro ⟨-, -, hval, -⟩
  rw [hcw] at hval
  exact absurd hval (by decide)

end MazeR

namespace MazeR

theorem removeWall_mono {w : Walls} {c : Pos} {d : Fin 4} (p : Pos) (e : Fin 4)
    (h : w p e = false) : removeWall w c (nbrOf c d) p e = false := by
  rw [removeWall_nbr_apply]
  split_ifs
  · rfl
  · exact h

theorem reach_mono {W H : ℕ} {w w2 : Walls}
    (hmono : ∀ p e, w p e = false → w2 p e = false) {c : Pos}
    (h : Reach W H w c) : Reach W H w2 c := by
  induction h with
  | base => exact Reach.base
  | step _ hn hop ih =>
    obtain ⟨d, rfl, h1, h2⟩ := hop
    exact Reach.step ih hn ⟨d, rfl, hmono _ _ h1, hmono _ _ h2⟩

/-- A concrete in-bounds unvisited neighbour is in the list
`GetUnvisitedNeighbour` builds. -/
theorem nbr_mem_unvisitedNeighbours {W H : ℕ} {vis : Pos → Bool} {c : Pos} (d : Fin 4)
    (hn : inB W H (nbrOf c d)) (hv : vis (nbrOf c d) = false) :
    nbrOf c d ∈ unvisitedNeighbours W H vis c := by
  simp only [unvisitedNeighbours, List.mem_append]
  rcases fin4_eq d with rfl | rfl | rfl | rfl
  · rw [nbrOf_e0] at hn hv
    exact Or.inl (Or.inl (Or.inl (by rw [if_pos ⟨hn.2.2.2, hv⟩]; simp [nbrOf_e0])))
  · rw [nbrOf_e1] at hn hv
    exact Or.inl (Or.inl (Or.inr (by rw [if_pos ⟨hn.2.1, hv⟩]; simp [nbrOf_e1])))
  · rw [nbrOf_e2] at hn hv
    exact Or.inl (Or.inr (by rw [if_pos ⟨hn.2.2.1, hv⟩]; simp [nbrOf_e2]))
  · rw [nbrOf_e3] at hn hv
    exact Or.inr (by rw [if_pos ⟨hn.1, hv⟩]; simp [nbrOf_e3])

/-- Every visited cell has an empty unvisited-neighbour list (the situation at
loop exit). -/
def NoFrontier (W H : ℕ) (s : GenState) : Prop :=
  ∀ c, s.visited c = true → unvisitedNeighbours W H s.visited c = []

/-- Invariant on the wall and visited state of `Generate`, together with ghost
DFS data: `par c` is the cell from which `c` was first entered and `ord c` its
discovery index. -/
structure WInv (W H : ℕ) (s : GenState) (par : Pos → Pos) (ord : Pos → ℕ) : Prop where
  visIn : ∀ c, s.visited c = true → inB W H c
  origVis : s.visited origin = true
  reach : ∀ c, s.visited c = true → Reach W H s.walls c
  openVis : ∀ c d, s.walls c d = false →
    s.visited c = true ∧ s.visited (nbrOf c d) = true ∧ inB W H c ∧ inB W H (nbrOf c d)
  count : (openNE W H s.walls).card + 1 = visitedCount W H s.visited
  ordBound : ∀ c, s.visited c = true → ord c < visitedCount W H s.visited
  parEdge : ∀ c d, s.walls c d = false →
    (par c = nbrOf c d ∧ ord (nbrOf c d) < ord c) ∨
    (par (nbrOf c d) = c ∧ ord c < ord (nbrOf c d))

/-- Control-flow invariant on the current cell and the explicit stack. -/
structure SInv (W H : ℕ) (s : GenState) : Prop where
  curIn : inB W H s.cur
  curVis : s.visited s.cur = true
  stackVis : ∀ c ∈ s.stack, s.visited c = true
  frontier : ∀ c, s.visited c = true → unvisitedNeighbours W H s.visited c ≠ [] →
    c ∈ s.cur :: s.stack
  stackOK : (s.stack = [origin] ∧ s.cur = origin) ∨ ∃ l, s.stack = l ++ [origin, origin]

end MazeR

namespace MazeR

/-- `WInv` is preserved by the move branch of the loop body, extending the
ghost parent map and discovery order at the fresh cell. -/
theorem winv_move_general {W H : ℕ} {s : GenState} {par : Pos → Pos} {ord : Pos → ℕ}
    (hw : WInv W H s par ord) (hcurIn : inB W H s.cur) (hcurVis : s.visited s.cur = true)
    {nxt : Pos} {d : Fin 4} (hnd : nxt = nbrOf s.cur d)
    (hnv : s.visited nxt = false) (hnin : inB W H nxt) (k2 : ℕ) :
    WInv W H
      { cur := nxt, stack := s.cur :: s.stack,
        visited := Function.update s.visited nxt true,
        walls := removeWall s.walls s.cur nxt, k := k2 }
      (Function.update par nxt s.cur)
      (Function.update ord nxt (visitedCount W H s.visited)) := by
  subst hnd
  have hvmono : ∀ c, s.visited c = true →
      Function.update s.visited (nbrOf s.cur d) true c = true := by
    intro c hc
    rw [Function.update_apply]
    split_ifs
    · rfl
    · exact hc
  have hclosed : s.walls s.cur d = true := by
    by_contra h
    rw [Bool.not_eq_true] at h
    have h2 := (hw.openVis _ _ h).2.1
    rw [hnv] at h2
    exact absurd h2 (by decide)
  have hclosed2 : s.walls (nbrOf s.cur d) (oppDir d) = true := by
    by_contra h
    rw [Bool.not_eq_true] at h
    have h2 := (hw.openVis _ _ h).1
    rw [hnv] at h2
    exact absurd h2 (by decide)
  have hcurne : s.cur ≠ nbrOf s.cur d := (nbrOf_ne s.cur d).symm
  have hcnt := visitedCount_update (W := W) (H := H) hnin hnv
  refine ⟨?_, ?_, ?_, ?_, ?_, ?_, ?_⟩
  all_goals dsimp only
  · intro c hc
    rw [Function.update_apply] at hc
    split_ifs at hc with hceq
    · exact hceq ▸ hnin
    · exact hw.visIn c hc
  · exact hvmono _ hw.origVis
  · intro c hc
    rw [Function.update_apply] at hc
    split_ifs at hc with hceq
    · subst hceq
      refine Reach.step (reach_mono removeWall_mono (hw.reach _ hcurVis)) hnin ⟨d, rfl, ?_, ?_⟩
      · rw [removeWall_nbr_apply, if_pos (Or.inl ⟨rfl, rfl⟩)]
      · rw [removeWall_nbr_apply, if_pos (Or.inr ⟨rfl, rfl⟩)]
    · exact reach_mono removeWall_mono (hw.reach c hc)
  · intro c e hce
    rw [removeWall_nbr_apply] at hce
    split_ifs at hce with hsp
    · rcases hsp with ⟨rfl, rfl⟩ | ⟨rfl, rfl⟩
      · refine ⟨hvmono _ hcurVis, by simp [Function.update_apply], hcurIn, hnin⟩
      · refine ⟨by simp [Function.update_apply], ?_, hnin, ?_⟩ <;> rw [nbrOf_nbrOf_oppDir]
        · exact hvmono _ hcurVis
        · exact hcurIn
    · obtain ⟨h1, h2, h3, h4⟩ := hw.openVis c e hce
      exact ⟨hvmono _ h1, hvmono _ h2, h3, h4⟩
  · rw [hcnt]
    have hcount := hw.count
    rcases fin4_eq d with rfl | rfl | rfl | rfl
    · rw [openNE_removeWall_card (Or.inl rfl) hcurIn hnin hclosed]
      omega
    · rw [openNE_removeWall_card (Or.inr rfl) hcurIn hnin hclosed]
      omega
    · rw [removeWall_flip s.walls s.cur 2,
        openNE_removeWall_card (d := oppDir 2) (Or.inl (by decide)) hnin
          (by rw [nbrOf_nbrOf_oppDir]; exact hcurIn) hclosed2]
      omega
    · rw [removeWall_flip s.walls s.cur 3,
        openNE_removeWall_card (d := oppDir 3) (Or.inr (by decide)) hnin
          (by rw [nbrOf_nbrOf_oppDir]; exact hcurIn) hclosed2]
      omega
  · intro c hc
    rw [hcnt, Function.update_apply]
    split_ifs with hceq
    · exact Nat.lt_succ_self _
    · rw [Function.update_apply, if_neg hceq] at hc
      exact Nat.lt_succ_of_lt (hw.ordBound c hc)
  · intro c e hce
    rw [removeWall_nbr_apply] at hce
    split_ifs at hce with hsp
    · rcases hsp with ⟨rfl, rfl⟩ | ⟨rfl, rfl⟩
      · right
        constructor
        · simp [Function.update_apply]
        · rw [Function.update_apply, Function.update_apply, if_neg hcurne, if_pos rfl]
          exact hw.ordBound _ hcurVis
      · left
        rw [nbrOf_nbrOf_oppDir]
        constructor
        · simp [Function.update_apply]
        · rw [Function.update_apply, Function.update_apply, if_neg hcurne, if_pos rfl]
          exact hw.ordBound _ hcurVis
    · obtain ⟨hv1, hv2, -, -⟩ := hw.openVis c e hce
      have hc_ne : c ≠ nbrOf s.cur d := by
        intro h
        rw [h, hnv] at hv1
        exact absurd hv1 (by decide)
      have hn_ne : nbrOf c e ≠ nbrOf s.cur d := by
        intro h
        rw [h, hnv] at hv2
        exact absurd hv2 (by decide)
      simp only [Function.update_apply, if_neg hc_ne, if_neg hn_ne]
      exact hw.parEdge c e hce

end MazeR

namespace MazeR

/-- `SInv` is preserved by the move branch of the loop body. -/
theorem sinv_move_general {W H : ℕ} {s : GenState} (hs : SInv W H s)
    (hvisIn : ∀ c, s.visited c = true → inB W H c)
    {nxt : Pos} (hnin : inB W H nxt)
    (w2 : Walls) (k2 : ℕ) :
    SInv W H
      { cur := nxt, stack := s.cur :: s.stack,
        visited := Function.update s.visited nxt true,
        walls := w2, k := k2 } := by
  have hvmono : ∀ c, s.visited c = true → Function.update s.visited nxt true c = true := by
    intro c hc
    rw [Function.update_apply]
    split_ifs
    · rfl
    · exact hc
  refine ⟨?_, ?_, ?_, ?_, ?_⟩
  all_goals dsimp only
  · exact hnin
  · simp [Function.update_apply]
  · intro c hc
    rcases List.mem_cons.mp hc with rfl | hc2
    · exact hvmono _ hs.curVis
    · exact hvmono _ (hs.stackVis c hc2)
  · intro c hc hne
    by_cases hcn : c = nxt
    · exact hcn ▸ List.mem_cons_self _ _
    · rw [Function.update_apply, if_neg hcn] at hc
      obtain ⟨q, hq⟩ := List.exists_mem_of_ne_nil _ hne
      obtain ⟨hqv, hqin, e, rfl⟩ := mem_unvisitedNeighbours (hvisIn c hc) hq
      rw [Function.update_apply] at hqv
      split_ifs at hqv
      have hmem := nbr_mem_unvisitedNeighbours e hqin hqv
      exact List.mem_cons_of_mem _ (hs.frontier c hc (List.ne_nil_of_mem hmem))
  · rcases hs.stackOK with ⟨hstk, hcur⟩ | ⟨l, hstk⟩
    · right
      exact ⟨[], by rw [hstk, hcur]; rfl⟩
    · right
      exact ⟨s.cur :: l, by rw [hstk]; rfl⟩

/-- `WInv` only concerns the walls and visited flags, which the backtrack
branch leaves untouched. -/
theorem winv_pop_general {W H : ℕ} {s : GenState} {par : Pos → Pos} {ord : Pos → ℕ}
    (hw : WInv W H s par ord) (t : Pos) (rest : List Pos) :
    WInv W H { s with cur := t, stack := rest } par ord :=
  ⟨hw.visIn, hw.origVis, hw.reach, hw.openVis, hw.count, hw.ordBound, hw.parEdge⟩

/-- `SInv` is preserved by the backtrack branch while at least two entries
remain on the stack. -/
theorem sinv_pop_general {W H : ℕ} {s : GenState} (hs : SInv W H s)
    (hvisIn : ∀ c, s.visited c = true → inB W H c)
    (hl : unvisitedNeighbours W H s.visited s.cur = [])
    {t t2 : Pos} {rest2 : List Pos} (hstk : s.stack = t :: t2 :: rest2) :
    SInv W H { s with cur := t, stack := t2 :: rest2 } := by
  have htvis : s.visited t = true := hs.stackVis t (by rw [hstk]; exact List.mem_cons_self _ _)
  refine ⟨?_, ?_, ?_, ?_, ?_⟩
  all_goals dsimp only
  · exact hvisIn t htvis
  · exact htvis
  · intro c hc
    exact hs.stackVis c (by rw [hstk]; exact List.mem_cons_of_mem _ hc)
  · intro c hc hne
    rcases List.mem_cons.mp (hs.frontier c hc hne) with rfl | hmem2
    · exact absurd hl hne
    · rw [hstk] at hmem2
      exact hmem2
  · rcases hs.stackOK with ⟨h1, -⟩ | ⟨l, h1⟩
    · rw [hstk] at h1
      simp at h1
    · rw [hstk] at h1
      cases l with
      | nil =>
        simp only [List.nil_append, List.cons.injEq] at h1
        obtain ⟨rfl, rfl, rfl⟩ := h1
        exact Or.inl ⟨rfl, rfl⟩
      | cons x l2 =>
        rw [List.cons_append] at h1
        injection h1 with h1a h1b
        exact Or.inr ⟨l2, h1b⟩

end MazeR

namespace MazeR

/-- What is known about the cell `GetUnvisitedNeighbour` returns. -/
theorem pick_spec {W H : ℕ} (r : ℕ → ℕ) {s : GenState} {a : Pos} {as : List Pos}
    (hcur : inB W H s.cur)
    (hl : unvisitedNeighbours W H s.visited s.cur = a :: as) :
    s.visited (pick r s.k a as) = false ∧ inB W H (pick r s.k a as) ∧
      ∃ d, pick r s.k a as = nbrOf s.cur d := by
  have hmem : pick r s.k a as ∈ unvisitedNeighbours W H s.visited s.cur := by
    rw [hl]
    exact pick_mem r s.k a as
  exact mem_unvisitedNeighbours hcur hmem

/-- Termination measure of the `Generate` loop. -/
def loopMeasure (W H : ℕ) (s : GenState) : ℕ :=
  2 * unvisCount W H s.visited + s.stack.length

/-- Running the loop to completion from any state satisfying the invariants
ends with an empty stack, preserved wall/visited invariants, and no visited
cell with an unvisited in-bounds neighbour. -/
theorem loop_post {W H : ℕ} (r : ℕ → ℕ) :
    ∀ (fuel : ℕ) (s : GenState) (par : Pos → Pos) (ord : Pos → ℕ),
      WInv W H s par ord → SInv W H s → loopMeasure W H s ≤ fuel →
      ∃ par2 ord2,
        WInv W H (generateLoop W H r fuel s) par2 ord2 ∧
        (generateLoop W H r fuel s).stack = [] ∧
        NoFrontier W H (generateLoop W H r fuel s) := by
  intro fuel
  induction fuel with
  | zero =>
    intro s par ord hw hs hm
    exfalso
    have hne : s.stack ≠ [] := by
      rcases hs.stackOK with ⟨h, -⟩ | ⟨l, h⟩ <;> simp [h]
    have hlen : 0 < s.stack.length := List.length_pos.mpr hne
    unfold loopMeasure at hm
    omega
  | succ n ih =>
    intro s par ord hw hs hm
    have hne : s.stack ≠ [] := by
      rcases hs.stackOK with ⟨h, -⟩ | ⟨l, h⟩ <;> simp [h]
    rw [generateLoop_cons r n hne]
    cases hl : unvisitedNeighbours W H s.visited s.cur with
    | cons a as =>
      obtain ⟨hnv, hnin, d, hnd⟩ := pick_spec r hs.curIn hl
      have humeas := unvisCount_update (W := W) (H := H) hnin hnv
      rw [step_move r hl]
      refine ih _ _ _ (winv_move_general hw hs.curIn hs.curVis hnd hnv hnin _)
        (sinv_move_general hs hw.visIn hnin _ _) ?_
      unfold loopMeasure at hm ⊢
      dsimp only
      rw [List.length_cons]
      omega
    | nil =>
      cases hstk : s.stack with
      | nil => exact absurd hstk hne
      | cons t rest =>
        cases rest with
        | nil =>
          rcases hs.stackOK with ⟨hso, hco⟩ | ⟨l, hso⟩
          · have ht : t = origin := by
              rw [hstk] at hso
              exact (List.cons.injEq .. ▸ hso).1
            rw [step_pop r hl hstk, generateLoop_nil r n rfl]
            refine ⟨par, ord, winv_pop_general hw t [], rfl, ?_⟩
            intro c hc
            by_contra hne2
            have hmem := hs.frontier c hc hne2
            rw [hco, hstk, ht] at hmem
            have hcorig : c = origin := by
              rcases List.mem_cons.mp hmem with h | h
              · exact h
              · rcases List.mem_cons.mp h with h2 | h2
                · exact h2
                · exact absurd h2 (List.not_mem_nil c)
            subst hcorig
            rw [← hco] at hne2
            exact hne2 hl
          · exfalso
            rw [hstk] at hso
            have hlen := congrArg List.length hso
            simp at hlen
        | cons t2 rest2 =>
          rw [step_pop r hl hstk]
          refine ih _ _ _ (winv_pop_general hw t (t2 :: rest2))
            (sinv_pop_general hs hw.visIn hl hstk) ?_
          unfold loopMeasure at hm ⊢
          dsimp only
          rw [hstk] at hm
          simp only [List.length_cons] at hm ⊢
          omega

end MazeR

namespace MazeR

theorem cellsF_card (W H : ℕ) : (cellsF W H).card = W * H := by
  rw [cellsF, Finset.card_product, Int.card_Ico, Int.card_Ico]
  simp

theorem origin_inB {W H : ℕ} (hW : 1 ≤ W) (hH : 1 ≤ H) : inB W H origin := by
  simp only [inB, origin]
  omega

theorem initState_visited_iff (c : Pos) : (initState.visited c = true) ↔ c = origin := by
  simp only [initState, Function.update_apply]
  split_ifs with h
  · simp [h]
  · simp [h]

theorem winv_init {W H : ℕ} (hW : 1 ≤ W) (hH : 1 ≤ H) :
    WInv W H initState (fun _ => origin) (fun _ => 0) := by
  have horig := origin_inB (W := W) (H := H) hW hH
  have hvc : visitedCount W H initState.visited = 1 := by
    unfold visitedCount
    have hone : (cellsF W H).filter (fun c => initState.visited c = true) = {origin} := by
      ext c
      simp only [Finset.mem_filter, Finset.mem_singleton, mem_cellsF, initState_visited_iff]
      constructor
      · rintro ⟨-, h⟩
        exact h
      · rintro rfl
        exact ⟨horig, rfl⟩
    rw [hone, Finset.card_singleton]
  have hopen : openNE W H initState.walls = ∅ := by
    ext q
    simp [openNE, initState]
  refine ⟨?_, ?_, ?_, ?_, ?_, ?_, ?_⟩
  · intro c hc
    rw [initState_visited_iff] at hc
    exact hc ▸ horig
  · rw [initState_visited_iff]
  · intro c hc
    rw [initState_visited_iff] at hc
    exact hc ▸ Reach.base
  · intro c d hcd
    exact absurd hcd (by simp [initState])
  · rw [hopen, hvc, Finset.card_empty]
  · intro c hc
    rw [hvc]
    exact Nat.zero_lt_one
  · intro c d hcd
    exact absurd hcd (by simp [initState])

theorem sinv_init {W H : ℕ} (hW : 1 ≤ W) (hH : 1 ≤ H) : SInv W H initState := by
  have horig := origin_inB (W := W) (H := H) hW hH
  refine ⟨horig, ?_, ?_, ?_, Or.inl ⟨rfl, rfl⟩⟩
  · rw [show initState.cur = origin from rfl, initState_visited_iff]
  · intro c hc
    rw [initState_visited_iff]
    rcases List.mem_cons.mp hc with rfl | h
    · rfl
    · exact absurd h (List.not_mem_nil c)
  · intro c hc hne
    rw [initState_visited_iff] at hc
    exact hc ▸ List.mem_cons_self _ _

theorem initState_measure {W H : ℕ} (hW : 1 ≤ W) (hH : 1 ≤ H) :
    loopMeasure W H initState ≤ 2 * W * H := by
  have horig := origin_inB (W := W) (H := H) hW hH
  have hsub : (cellsF W H).filter (fun c => initState.visited c = false) ⊆
      (cellsF W H).erase origin := by
    intro c hc
    rw [Finset.mem_filter] at hc
    rw [Finset.mem_erase]
    refine ⟨?_, hc.1⟩
    intro hco
    have h2 := hc.2
    rw [hco, show initState.visited origin = true from by rw [initState_visited_iff]] at h2
    exact absurd h2 (by decide)
  have hle := Finset.card_le_card hsub
  rw [Finset.card_erase_of_mem (mem_cellsF.mpr horig), cellsF_card] at hle
  have hle2 : unvisCount W H initState.visited ≤ W * H - 1 := hle
  have hwh : 1 ≤ W * H := Nat.one_le_iff_ne_zero.mpr (by positivity)
  have hm : loopMeasure W H initState = 2 * unvisCount W H initState.visited + 1 := rfl
  rw [hm, mul_assoc]
  omega

end MazeR

namespace MazeR

/-- What holds of the final state of `Generate`: the wall/visited/ghost
invariant, an empty stack and no remaining frontier. -/
theorem generate_post {W H : ℕ} (r : ℕ → ℕ) (hW : 1 ≤ W) (hH : 1 ≤ H) :
    ∃ par ord,
      WInv W H (generate W H r) par ord ∧
      (generate W H r).stack = [] ∧
      NoFrontier W H (generate W H r) :=
  loop_post r (2 * W * H) initState _ _ (winv_init hW hH) (sinv_init hW hH)
    (initState_measure hW hH)

/-- Reachability in the bare grid graph (ignoring walls): every in-bounds cell
is reachable from the origin through in-bounds orthogonal steps. -/
inductive GridReach (W H : ℕ) : Pos → Prop where
  | base : GridReach W H origin
  | step {c n : Pos} : GridReach W H c → inB W H n → (∃ d, n = nbrOf c d) →
      GridReach W H n

theorem gridReach_aux {W H : ℕ} :
    ∀ n : ℕ, ∀ x y : ℤ, x.toNat + y.toNat = n → inB W H (x, y) → GridReach W H (x, y) := by
  intro n
  induction n using Nat.strong_induction_on with
  | _ n ih =>
    intro x y hn hb
    have hb2 : 0 ≤ x ∧ x < (W : ℤ) ∧ 0 ≤ y ∧ y < (H : ℤ) := hb
    obtain ⟨hx0, hx1, hy0, hy1⟩ := hb2
    rcases eq_or_lt_of_le hx0 with hx | hx
    · rcases eq_or_lt_of_le hy0 with hy | hy
      · rw [← hx, ← hy]
        exact GridReach.base
      · have hprev : GridReach W H (x, y - 1) :=
          ih (x.toNat + (y - 1).toNat) (by omega) x (y - 1) rfl ⟨hx0, hx1, by omega, by omega⟩
        refine GridReach.step hprev ⟨hx0, hx1, hy0, hy1⟩ ⟨0, ?_⟩
        rw [nbrOf_e0]
        exact Prod.ext rfl (by omega)
    · have hprev : GridReach W H (x - 1, y) :=
        ih ((x - 1).toNat + y.toNat) (by omega) (x - 1) y rfl ⟨by omega, by omega, hy0, hy1⟩
      refine GridReach.step hprev ⟨hx0, hx1, hy0, hy1⟩ ⟨1, ?_⟩
      rw [nbrOf_e1]
      exact Prod.ext (by omega) rfl

theorem gridReach_all {W H : ℕ} {c : Pos} (hc : inB W H c) : GridReach W H c := by
  obtain ⟨x, y⟩ := c
  exact gridReach_aux (x.toNat + y.toNat) x y rfl hc

/-- With no frontier left, every in-bounds cell is visited. -/
theorem all_visited {W H : ℕ} {g : GenState}
    (horig : g.visited origin = true) (hnf : NoFrontier W H g) :
    ∀ c, inB W H c → g.visited c = true := by
  intro c hc
  have hgr := gridReach_all hc
  clear hc
  induction hgr with
  | base => exact horig
  | step hgr2 hninB hex ih =>
    by_contra hnv
    rw [Bool.not_eq_true] at hnv
    obtain ⟨d, rfl⟩ := hex
    have hmem := nbr_mem_unvisitedNeighbours d hninB hnv
    rw [hnf _ ih] at hmem
    exact absurd hmem (List.not_mem_nil _)

theorem visitedCount_full {W H : ℕ} {vis : Pos → Bool}
    (hall : ∀ c, inB W H c → vis c = true) : visitedCount W H vis = W * H := by
  unfold visitedCount
  rw [Finset.filter_true_of_mem (fun c hc => hall c (mem_cellsF.mp hc))]
  exact cellsF_card W H

/-- The open-passage graph of a wall configuration, on the full integer grid:
two cells are adjacent when they are grid neighbours and the shared wall is
absent on both sides. -/
def mazeGraph (w : Walls) : SimpleGraph Pos where
  Adj a b := openPassage w a b
  symm := by
    rintro a b ⟨d, rfl, h1, h2⟩
    refine ⟨oppDir d, (nbrOf_nbrOf_oppDir a d).symm, h2, ?_⟩
    rwa [oppDir_oppDir]
  loopless := by
    rintro a ⟨d, hd, -, -⟩
    exact nbrOf_ne a d hd.symm

end MazeR

namespace MazeR

/-- A non-nil walk from `m` starts with an edge `s(m, x)` into a support
vertex `x`. -/
theorem walk_head_adj {V : Type} {G : SimpleGraph V} {m u : V} (q : G.Walk m u)
    (hq : ¬ q.Nil) :
    ∃ x, G.Adj m x ∧ s(m, x) ∈ q.edges ∧ x ∈ q.support := by
  cases q with
  | nil => exact absurd SimpleGraph.Walk.Nil.nil hq
  | cons hadj p =>
    refine ⟨_, hadj, ?_, ?_⟩
    · rw [SimpleGraph.Walk.edges_cons]
      exact List.mem_cons_self _ _
    · rw [SimpleGraph.Walk.support_cons]
      exact List.mem_cons_of_mem _ (SimpleGraph.Walk.start_mem_support p)

/-- A graph all of whose edges join a vertex to its unique parent at a
strictly smaller level is acyclic: on a cycle, the vertex of maximal level
would be the parent end of both its incident cycle edges, forcing the first
and last edge of the cycle to coincide. -/
theorem isAcyclic_of_parent {V : Type} [DecidableEq V] (G : SimpleGraph V)
    (f : V → ℕ) (par : V → V)
    (hpar : ∀ a b, G.Adj a b → (par b = a ∧ f a < f b) ∨ (par a = b ∧ f b < f a)) :
    G.IsAcyclic := by
  have key : ∀ (m : V) (c : G.Walk m m), c.IsCycle →
      (∀ x ∈ c.support, f x ≤ f m) → False := by
    intro m c hc hmax
    have hlen := hc.three_le_length
    cases c with
    | nil => exact hc.ne_nil rfl
    | @cons _ v _ hadj p =>
      rw [SimpleGraph.Walk.cons_isCycle_iff] at hc
      obtain ⟨hpath, hedge⟩ := hc
      have hvsup : v ∈ (SimpleGraph.Walk.cons hadj p).support := by
        rw [SimpleGraph.Walk.support_cons]
        exact List.mem_cons_of_mem _ (SimpleGraph.Walk.start_mem_support p)
      have hparv : par m = v := by
        rcases hpar m v hadj with ⟨-, h2⟩ | ⟨h1, -⟩
        · exact absurd h2 (not_lt.mpr (hmax v hvsup))
        · exact h1
      have hrevnil : ¬ p.reverse.Nil := by
        rw [SimpleGraph.Walk.nil_iff_length_eq, SimpleGraph.Walk.length_reverse]
        rw [SimpleGraph.Walk.length_cons] at hlen
        omega
      obtain ⟨x, hadj2, hedge2, hsupp2⟩ := walk_head_adj p.reverse hrevnil
      have hxsup : x ∈ (SimpleGraph.Walk.cons hadj p).support := by
        rw [SimpleGraph.Walk.support_reverse] at hsupp2
        rw [SimpleGraph.Walk.support_cons]
        exact List.mem_cons_of_mem _ (List.mem_reverse.mp hsupp2)
      have hparx : par m = x := by
        rcases hpar m x hadj2 with ⟨-, h2⟩ | ⟨h1, -⟩
        · exact absurd h2 (not_lt.mpr (hmax x hxsup))
        · exact h1
      rw [SimpleGraph.Walk.edges_reverse, List.mem_reverse] at hedge2
      rw [hparv] at hparx
      rw [← hparx] at hedge2
      exact hedge hedge2
  intro v c hc
  obtain ⟨m, hm_mem, hmax⟩ := Finset.exists_max_image c.support.toFinset f
    ⟨v, List.mem_toFinset.mpr (SimpleGraph.Walk.start_mem_support c)⟩
  rw [List.mem_toFinset] at hm_mem
  refine key m (c.rotate hm_mem) (hc.rotate hm_mem) ?_
  intro x hx
  have hx2 : x ∈ c.support := by
    rw [SimpleGraph.Walk.support_eq_cons] at hx
    rcases List.mem_cons.mp hx with rfl | hx3
    · exact hm_mem
    · have hperm := SimpleGraph.Walk.support_rotate c hm_mem
      have hx4 := hperm.mem_iff.mp hx3
      rw [SimpleGraph.Walk.support_eq_cons c]
      exact List.mem_cons_of_mem _ hx4
  exact hmax x (List.mem_toFinset.mpr hx2)

end MazeR

namespace MazeR

/-- **C1**: for every grid size `W,H ≥ 1`, after `Initialize` followed by
`Generate` (with any RNG stream), the open passages form a spanning tree over
all `W×H` cells: a flood fill from `(0,0)` over open passages visits every
in-bounds cell, exactly `W*H - 1` adjacent cell pairs have their shared wall
open, and the open-passage graph contains no cycles. -/
theorem C1_generate_spanning_tree (W H : ℕ) (r : ℕ → ℕ) (hW : 1 ≤ W) (hH : 1 ≤ H) :
    (∀ c, inB W H c → Reach W H (generate W H r).walls c) ∧
    (openNE W H (generate W H r).walls).card = W * H - 1 ∧
    (mazeGraph (generate W H r).walls).IsAcyclic := by
  obtain ⟨par, ord, hw, hstk, hnf⟩ := generate_post r hW hH
  have hall := all_visited hw.origVis hnf
  refine ⟨?_, ?_, ?_⟩
  · intro c hc
    exact hw.reach c (hall c hc)
  · have hcount := hw.count
    rw [visitedCount_full hall] at hcount
    omega
  · apply isAcyclic_of_parent _ ord par
    intro a b hab
    obtain ⟨d, rfl, h1, -⟩ := hab
    rcases hw.parEdge a d h1 with ⟨h3, h4⟩ | ⟨h3, h4⟩
    · exact Or.inr ⟨h3, h4⟩
    · exact Or.inl ⟨h3, h4⟩

/-- Witness for C1 at the concrete instance `W = H = 1` with the zero RNG
stream. -/
theorem C1_generate_spanning_tree_witness :
    (1 ≤ 1) ∧ (1 ≤ 1) ∧
    ((∀ c, inB 1 1 c → Reach 1 1 (generate 1 1 (fun _ => 0)).walls c) ∧
      (openNE 1 1 (generate 1 1 (fun _ => 0)).walls).card = 1 * 1 - 1 ∧
      (mazeGraph (generate 1 1 (fun _ => 0)).walls).IsAcyclic) :=
  ⟨le_rfl, le_rfl, C1_generate_spanning_tree 1 1 (fun _ => 0) le_rfl le_rfl⟩

/-- **C9**: after `Initialize` followed by `Generate`, every cell on the grid
perimeter keeps its outward wall flag: `walls[0]` when `y = H-1`, `walls[1]`
when `x = W-1`, `walls[2]` when `y = 0`, `walls[3]` when `x = 0`. -/
theorem C9_perimeter_walls (W H : ℕ) (r : ℕ → ℕ) (hW : 1 ≤ W) (hH : 1 ≤ H) :
    ∀ c, inB W H c →
      (c.2 = (H : ℤ) - 1 → (generate W H r).walls c 0 = true) ∧
      (c.1 = (W : ℤ) - 1 → (generate W H r).walls c 1 = true) ∧
      (c.2 = 0 → (generate W H r).walls c 2 = true) ∧
      (c.1 = 0 → (generate W H r).walls c 3 = true) := by
  obtain ⟨par, ord, hw, -, -⟩ := generate_post r hW hH
  intro c hc
  refine ⟨?_, ?_, ?_, ?_⟩
  · intro hcoord
    by_contra hfalse
    rw [Bool.not_eq_true] at hfalse
    have hn := (hw.openVis c 0 hfalse).2.2.2
    rw [nbrOf_e0] at hn
    obtain ⟨-, -, -, hy⟩ := hn
    omega
  · intro hcoord
    by_contra hfalse
    rw [Bool.not_eq_true] at hfalse
    have hn := (hw.openVis c 1 hfalse).2.2.2
    rw [nbrOf_e1] at hn
    obtain ⟨-, hx, -, -⟩ := hn
    omega
  · intro hcoord
    by_contra hfalse
    rw [Bool.not_eq_true] at hfalse
    have hn := (hw.openVis c 2 hfalse).2.2.2
    rw [nbrOf_e2] at hn
    obtain ⟨-, -, hy, -⟩ := hn
    omega
  · intro hcoord
    by_contra hfalse
    rw [Bool.not_eq_true] at hfalse
    have hn := (hw.openVis c 3 hfalse).2.2.2
    rw [nbrOf_e3] at hn
    obtain ⟨hx, -, -, -⟩ := hn
    omega

/-- Witness for C9 at `W = H = 1`, cell `(0,0)`, zero RNG stream. -/
theorem C9_perimeter_walls_witness :
    (1 ≤ 1) ∧ (1 ≤ 1) ∧ inB 1 1 origin ∧
    ((origin.2 = (1 : ℤ) - 1 → (generate 1 1 (fun _ => 0)).walls origin 0 = true) ∧
      (origin.1 = (1 : ℤ) - 1 → (generate 1 1 (fun _ => 0)).walls origin 1 = true) ∧
      (origin.2 = 0 → (generate 1 1 (fun _ => 0)).walls origin 2 = true) ∧
      (origin.1 = 0 → (generate 1 1 (fun _ => 0)).walls origin 3 = true)) :=
  ⟨le_rfl, le_rfl, by decide,
    C9_perimeter_walls 1 1 (fun _ => 0) le_rfl le_rfl origin (by decide)⟩

end MazeR

namespace MazeR

/-- Two cells orthogonally adjacent: `b` lies one step from `a` in one of the
four grid directions. -/
def adjacentCells (a b : Pos) : Prop := ∃ d : Fin 4, b = nbrOf a d

instance (a b : Pos) : Decidable (adjacentCells a b) := by
  unfold adjacentCells; infer_instance

/-- Symmetry of the wall state over a `W×H` grid: for every adjacent in-bounds
pair, the flag on one side is absent exactly when the matching flag on the
neighbour's opposite side is absent. -/
def SymmWalls (W H : ℕ) (w : Walls) : Prop :=
  ∀ c : Pos, ∀ d : Fin 4, inB W H c → inB W H (nbrOf c d) →
    (w c d = false ↔ w (nbrOf c d) (oppDir d) = false)

/-- The wall state after `Initialize()` followed by a sequence of
`RemoveWall(a, b)` calls, one per list entry. -/
def removeWallSeq (l : List (Pos × Pos)) : Walls :=
  l.foldl (fun w pr => removeWall w pr.1 pr.2) initState.walls

/-- One `RemoveWall` call on an adjacent pair preserves pointwise symmetry of
the wall state. -/
theorem removeWall_symm_pres {w : Walls}
    (hsym : ∀ p e, w p e = w (nbrOf p e) (oppDir e)) (c : Pos) (d : Fin 4) :
    ∀ p e, removeWall w c (nbrOf c d) p e =
      removeWall w c (nbrOf c d) (nbrOf p e) (oppDir e) := by
  intro p e
  rw [removeWall_nbr_apply, removeWall_nbr_apply]
  by_cases h1 : p = c ∧ e = d
  · obtain ⟨rfl, rfl⟩ := h1
    rw [if_pos (Or.inl ⟨rfl, rfl⟩), if_pos (Or.inr ⟨rfl, rfl⟩)]
  · by_cases h2 : p = nbrOf c d ∧ e = oppDir d
    · obtain ⟨rfl, rfl⟩ := h2
      rw [if_pos (Or.inr ⟨rfl, rfl⟩),
        if_pos (Or.inl ⟨nbrOf_nbrOf_oppDir c d, oppDir_oppDir d⟩)]
    · rw [if_neg (by tauto), if_neg ?hng]
      · exact hsym p e
      case hng =>
        rintro (h | h)
        · exact h2 (facing_eq_iff.mp h)
        · apply h1
          have he : e = d := by
            have h5 := congrArg oppDir h.2
            rwa [oppDir_oppDir, oppDir_oppDir] at h5
          subst he
          refine ⟨?_, rfl⟩
          have h6 := congrArg (fun q => nbrOf q (oppDir e)) h.1
          simpa only [nbrOf_nbrOf_oppDir] using h6

theorem foldl_removeWall_symm :
    ∀ (l : List (Pos × Pos)) (w : Walls), (∀ pr ∈ l, adjacentCells pr.1 pr.2) →
      (∀ p e, w p e = w (nbrOf p e) (oppDir e)) →
      ∀ p e, (l.foldl (fun w2 pr => removeWall w2 pr.1 pr.2) w) p e =
        (l.foldl (fun w2 pr => removeWall w2 pr.1 pr.2) w) (nbrOf p e) (oppDir e) := by
  intro l
  induction l with
  | nil => exact fun w _ hw => hw
  | cons pr rest ih =>
    intro w hadj hw
    simp only [List.foldl_cons]
    refine ih _ (fun q hq => hadj q (List.mem_cons_of_mem _ hq)) ?_
    obtain ⟨d, hd⟩ := hadj pr (List.mem_cons_self _ _)
    rw [hd]
    exact removeWall_symm_pres hw pr.1 d

/-- **C2**: a `RemoveWall` call on an adjacent pair clears both cells'
corresponding flags, and after `Initialize` and any sequence of `RemoveWall`
calls on adjacent pairs the wall state is symmetric: one side's flag is false
iff the neighbour's opposite flag is false. -/
theorem C2_removeWall_symmetry :
    (∀ (w : Walls) (cur : Pos) (d : Fin 4),
      removeWall w cur (nbrOf cur d) cur d = false ∧
      removeWall w cur (nbrOf cur d) (nbrOf cur d) (oppDir d) = false) ∧
    (∀ (W H : ℕ) (l : List (Pos × Pos)), (∀ pr ∈ l, adjacentCells pr.1 pr.2) →
      SymmWalls W H (removeWallSeq l)) := by
  constructor
  · intro w cur d
    constructor
    · rw [removeWall_nbr_apply, if_pos (Or.inl ⟨rfl, rfl⟩)]
    · rw [removeWall_nbr_apply, if_pos (Or.inr ⟨rfl, rfl⟩)]
  · intro W H l hadj c d hc hn
    unfold removeWallSeq
    rw [foldl_removeWall_symm l initState.walls hadj (fun p e => rfl) c d]

/-- Witness for C2: the pair `(0,0)–(0,1)` on a `2×2` grid. -/
theorem C2_removeWall_symmetry_witness :
    (removeWall initState.walls origin (nbrOf origin 0) origin 0 = false ∧
      removeWall initState.walls origin (nbrOf origin 0) (nbrOf origin 0) (oppDir 0) = false) ∧
    (∀ pr ∈ [(origin, ((0 : ℤ), (1 : ℤ)))], adjacentCells pr.1 pr.2) ∧
    SymmWalls 2 2 (removeWallSeq [(origin, ((0 : ℤ), (1 : ℤ)))]) :=
  ⟨C2_removeWall_symmetry.1 initState.walls origin 0, by decide,
    C2_removeWall_symmetry.2 2 2 [(origin, ((0 : ℤ), (1 : ℤ)))] (by decide)⟩

end MazeR

namespace MazeR

/-- raylib `Vector3`, over an arbitrary ordered field (rationals for
executable instances, reals where `sqrtf` is involved). -/
structure Vec3 (α : Type) where
  x : α
  y : α
  z : α
deriving DecidableEq

/-- raymath `Vector3Add`. -/
def vadd {α : Type} [Add α] (a b : Vec3 α) : Vec3 α := ⟨a.x + b.x, a.y + b.y, a.z + b.z⟩

/-- raymath `Vector3Subtract`. -/
def vsub {α : Type} [Sub α] (a b : Vec3 α) : Vec3 α := ⟨a.x - b.x, a.y - b.y, a.z - b.z⟩

/-- raymath `Vector3Scale`. -/
def vscale {α : Type} [Mul α] (v : Vec3 α) (s : α) : Vec3 α := ⟨v.x * s, v.y * s, v.z * s⟩

/-- raymath `Vector3Length`: `sqrtf(x*x + y*y + z*z)`. -/
noncomputable def vlen (v : Vec3 ℝ) : ℝ :=
  Real.sqrt (v.x * v.x + v.y * v.y + v.z * v.z)

/-- raymath `Vector3Distance`: `sqrtf(dx*dx + dy*dy + dz*dz)`. -/
noncomputable def vdist (a b : Vec3 ℝ) : ℝ :=
  Real.sqrt ((b.x - a.x) * (b.x - a.x) + (b.y - a.y) * (b.y - a.y) +
    (b.z - a.z) * (b.z - a.z))

/-- raymath `Vector3Normalize`: scale by `1/length` unless the length is
zero, in which case the vector is returned unchanged. -/
noncomputable def vnormalize (v : Vec3 ℝ) : Vec3 ℝ :=
  if vlen v = 0 then v else vscale v (1 / vlen v)

/-- The C cast `(int)` of the collision code: truncation toward zero. -/
def truncInt {α : Type} [LinearOrderedField α] [FloorRing α] (q : α) : ℤ :=
  if 0 ≤ q then ⌊q⌋ else ⌈q⌉

/-- `MazeGenerator::GetCell`: a pointer to the cell at `(x, y)`, or the
null-pointer sentinel when the index is out of bounds.  (`CELL_SIZE = 1`,
`PLAYER_RADIUS = 0.15`, `PLAYER_HEIGHT = 0.5` below.) -/
def getCell (W H : ℕ) (p : ℤ × ℤ) : Option (ℤ × ℤ) :=
  if inB W H p then some p else none

/-- `MazeGenerator::CheckWallCollision`: map the candidate position to a cell
index (with a half-cell offset), compute the local offset inside that cell,
treat a failed lookup as blocked, and otherwise test the four wall flags
against the `PLAYER_RADIUS = 0.15` envelope. -/
def checkWallCollision {α : Type} [LinearOrderedField α] [FloorRing α]
    (W H : ℕ) (w : Walls) (p : Vec3 α) : Bool :=
  let cellX : ℤ := truncInt ((p.x + 1 / 2) / 1)
  let cellY : ℤ := truncInt ((p.z + 1 / 2) / 1)
  let localX : α := p.x - ((cellX : α) * 1 - 1 / 2)
  let localY : α := p.z - ((cellY : α) * 1 - 1 / 2)
  match getCell W H (cellX, cellY) with
  | none => true
  | some c =>
    if w c 0 = true ∧ localY > 1 - 3 / 20 then true
    else if w c 1 = true ∧ localX > 1 - 3 / 20 then true
    else if w c 2 = true ∧ localY < 3 / 20 then true
    else if w c 3 = true ∧ localX < 3 / 20 then true
    else false

/-- `MazeGenerator::GetRandomSpawnPosition`: two `rand()` draws (x then y),
each reduced modulo the grid size, returned as the world position
`(x*CELL_SIZE, PLAYER_HEIGHT/2, y*CELL_SIZE)`. -/
def spawnPos {α : Type} [LinearOrderedField α] (W H : ℕ) (r : ℕ → ℕ) (k : ℕ) : Vec3 α :=
  ⟨((r k % W : ℕ) : α) * 1, (1 / 2) / 2, ((r (k + 1) % H : ℕ) : α) * 1⟩

/-- The `NPC::State` enumeration. -/
inductive NState where
  | WANDERING
  | CHASING
  | FLEEING
  | PATROLLING
deriving DecidableEq

/-- The mutable fields of `struct NPC` used by `Think`/`Update`. -/
structure NPC where
  position : Vec3 ℝ
  target : Vec3 ℝ
  speed : ℝ
  thinkTimer : ℝ
  state : NState

/-- `NPC::Think`: accumulate the timer; once it exceeds `0.5`, reset it and
switch on the distance to the player (`< 3` flee, `< 5` chase, otherwise
wander with a 30% chance of retargeting).  Returns the updated NPC and the
new position in the `rand()` stream. -/
noncomputable def think (W H : ℕ) (r : ℕ → ℕ) (npc : NPC) (playerPos : Vec3 ℝ)
    (dt : ℝ) (k : ℕ) : NPC × ℕ :=
  let t := npc.thinkTimer + dt
  if t > 1 / 2 then
    let distToPlayer := vdist npc.position playerPos
    if distToPlayer < 3 then
      ({ npc with
          thinkTimer := 0
          state := NState.FLEEING
          target := vadd npc.position (vscale (vnormalize (vsub npc.position playerPos)) 2) }, k)
    else if distToPlayer < 5 then
      ({ npc with
          thinkTimer := 0
          state := NState.CHASING
          target := playerPos }, k)
    else if r k % 10 < 3 then
      ({ npc with
          thinkTimer := 0
          state := NState.WANDERING
          target := spawnPos W H r (k + 1) }, k + 3)
    else
      ({ npc with
          thinkTimer := 0
          state := NState.WANDERING }, k + 1)
  else
    ({ npc with thinkTimer := t }, k)

/-- `NPC::Update`: head straight for the target whenever it is more than
`0.1` away, testing the single combined new position against the maze; on
collision, keep the position and draw a fresh random spawn point as target. -/
noncomputable def update (W H : ℕ) (r : ℕ → ℕ) (w : Walls) (npc : NPC)
    (dt : ℝ) (k : ℕ) : NPC × ℕ :=
  let direction := vsub npc.target npc.position
  let distance := vlen direction
  if distance > 1 / 10 then
    let move := vscale (vnormalize direction) (npc.speed * dt)
    let newPos := vadd npc.position move
    if checkWallCollision W H w newPos = false then
      ({ npc with position := newPos }, k)
    else
      ({ npc with target := spawnPos W H r k }, k + 2)
  else
    (npc, k)

end MazeR

namespace MazeR

/-- One frame-step input to an NPC: a `Think` call (with the player position
and delta-time the host supplies) or an `Update` call (with the maze walls
and delta-time). -/
inductive NEvent where
  | think (playerPos : Vec3 ℝ) (dt : ℝ)
  | move (w : Walls) (dt : ℝ)

/-- Run an NPC through a finite sequence of `Think`/`Update` calls, threading
the `rand()` stream position. -/
noncomputable def runNPC (W H : ℕ) (r : ℕ → ℕ) : List NEvent → NPC × ℕ → NPC × ℕ
  | [], st => st
  | NEvent.think pp dt :: evs, st => runNPC W H r evs (think W H r st.1 pp dt st.2)
  | NEvent.move w dt :: evs, st => runNPC W H r evs (update W H r w st.1 dt st.2)

theorem think_no_patrol (W H : ℕ) (r : ℕ → ℕ) (npc : NPC) (pp : Vec3 ℝ)
    (dt : ℝ) (k : ℕ) (h : npc.state ≠ NState.PATROLLING) :
    (think W H r npc pp dt k).1.state ≠ NState.PATROLLING := by
  simp only [think]
  split_ifs <;> simp_all

theorem update_state_eq (W H : ℕ) (r : ℕ → ℕ) (w : Walls) (npc : NPC)
    (dt : ℝ) (k : ℕ) : (update W H r w npc dt k).1.state = npc.state := by
  simp only [update]
  split_ifs <;> rfl

/-- **C8**: an NPC that starts in the `WANDERING` state never reaches
`PATROLLING`, whatever finite sequence of `Think`/`Update` calls it receives
(with any player positions, delta-times, walls and RNG draws): no transition
assigns the `PATROLLING` state. -/
theorem C8_no_patrol (W H : ℕ) (r : ℕ → ℕ) (evs : List NEvent) (npc : NPC) (k : ℕ)
    (h : npc.state = NState.WANDERING) :
    (runNPC W H r evs (npc, k)).1.state ≠ NState.PATROLLING := by
  have key : ∀ (l : List NEvent) (st : NPC × ℕ), st.1.state ≠ NState.PATROLLING →
      (runNPC W H r l st).1.state ≠ NState.PATROLLING := by
    intro l
    induction l with
    | nil => exact fun st h2 => h2
    | cons ev rest ih =>
      intro st h2
      cases ev with
      | think pp dt =>
        show (runNPC W H r rest (think W H r st.1 pp dt st.2)).1.state ≠ NState.PATROLLING
        exact ih _ (think_no_patrol W H r st.1 pp dt st.2 h2)
      | move w dt =>
        show (runNPC W H r rest (update W H r w st.1 dt st.2)).1.state ≠ NState.PATROLLING
        refine ih _ ?_
        rw [update_state_eq]
        exact h2
  exact key evs (npc, k) (by rw [h]; decide)

/-- Concrete NPC used by the C8 witness. -/
noncomputable def npcC8 : NPC := ⟨⟨0, 0, 0⟩, ⟨1, 0, 0⟩, 2, 0, NState.WANDERING⟩

/-- Witness for C8: a concrete `WANDERING` NPC run through one `Think` and
one `Update`. -/
theorem C8_no_patrol_witness :
    npcC8.state = NState.WANDERING ∧
    (runNPC 20 20 (fun _ => 0)
        [NEvent.think ⟨0, 0, 0⟩ 1, NEvent.move initState.walls 1]
        (npcC8, 0)).1.state ≠ NState.PATROLLING :=
  ⟨rfl, C8_no_patrol 20 20 (fun _ => 0) _ npcC8 0 rfl⟩

/-- **C5**: whenever the computed cell index of a candidate position falls
outside `[0,W)×[0,H)`, the cell lookup returns the null sentinel and the
collision check reports blocked, for every wall state. -/
theorem C5_out_of_bounds {α : Type} [LinearOrderedField α] [FloorRing α]
    (W H : ℕ) (w : Walls) (p : Vec3 α)
    (hout : ¬ inB W H (truncInt ((p.x + 1 / 2) / 1), truncInt ((p.z + 1 / 2) / 1))) :
    getCell W H (truncInt ((p.x + 1 / 2) / 1), truncInt ((p.z + 1 / 2) / 1)) = none ∧
    checkWallCollision W H w p = true := by
  have hg : getCell W H (truncInt ((p.x + 1 / 2) / 1), truncInt ((p.z + 1 / 2) / 1)) = none := by
    unfold getCell
    rw [if_neg hout]
  refine ⟨hg, ?_⟩
  simp only [checkWallCollision, hg]

theorem truncInt_eq_zero {α : Type} [LinearOrderedField α] [FloorRing α] {q : α}
    (h0 : 0 ≤ q) (h1 : q < 1) : truncInt q = 0 := by
  unfold truncInt
  rw [if_pos h0, Int.floor_eq_zero_iff]
  exact Set.mem_Ico.mpr ⟨h0, h1⟩

/-- Witness for C5: the rational position `(-2, 0, 0)` on the `20×20` grid
maps to cell index `(-1, 0)`, outside the grid. -/
theorem C5_out_of_bounds_witness :
    ¬ inB 20 20 (truncInt (((-2 : ℚ) + 1 / 2) / 1), truncInt (((0 : ℚ) + 1 / 2) / 1)) ∧
    (getCell 20 20
        (truncInt (((-2 : ℚ) + 1 / 2) / 1), truncInt (((0 : ℚ) + 1 / 2) / 1)) = none ∧
      checkWallCollision 20 20 initState.walls (⟨-2, 0, 0⟩ : Vec3 ℚ) = true) := by
  have h1 : truncInt (((-2 : ℚ) + 1 / 2) / 1) = -1 := by
    unfold truncInt
    rw [if_neg (by norm_num), Int.ceil_eq_iff]
    constructor <;> norm_num
  have h2 : truncInt (((0 : ℚ) + 1 / 2) / 1) = 0 :=
    truncInt_eq_zero (by norm_num) (by norm_num)
  have hout : ¬ inB 20 20
      (truncInt (((-2 : ℚ) + 1 / 2) / 1), truncInt (((0 : ℚ) + 1 / 2) / 1)) := by
    rw [h1, h2]
    decide
  exact ⟨hout, C5_out_of_bounds 20 20 initState.walls ⟨-2, 0, 0⟩ hout⟩

end MazeR

namespace MazeR

theorem sqrt_four : Real.sqrt 4 = 2 := by
  rw [show (4 : ℝ) = 2 ^ 2 by norm_num, Real.sqrt_sq (by norm_num : (0 : ℝ) ≤ 2)]

theorem sqrt_twentyfive : Real.sqrt 25 = 5 := by
  rw [show (25 : ℝ) = 5 ^ 2 by norm_num, Real.sqrt_sq (by norm_num : (0 : ℝ) ≤ 5)]

/-- **C4**: whenever `Think` fires (accumulated timer beyond `0.5`), the
distance `d` to the player selects the transition: `d < 3` gives `FLEEING`
with target = position plus the normalised player-to-NPC vector scaled by 2;
`3 ≤ d < 5` gives `CHASING` with target = player position; `d ≥ 5` gives
`WANDERING`, retargeting to a fresh random spawn point exactly when
`rand() % 10 < 3` and otherwise leaving the target unchanged. -/
theorem C4_think_transitions (W H : ℕ) (r : ℕ → ℕ) (npc : NPC) (pp : Vec3 ℝ)
    (dt : ℝ) (k : ℕ) (hfire : npc.thinkTimer + dt > 1 / 2) :
    (vdist npc.position pp < 3 →
      (think W H r npc pp dt k).1.state = NState.FLEEING ∧
      (think W H r npc pp dt k).1.target =
        vadd npc.position (vscale (vnormalize (vsub npc.position pp)) 2)) ∧
    (3 ≤ vdist npc.position pp → vdist npc.position pp < 5 →
      (think W H r npc pp dt k).1.state = NState.CHASING ∧
      (think W H r npc pp dt k).1.target = pp) ∧
    (5 ≤ vdist npc.position pp →
      (think W H r npc pp dt k).1.state = NState.WANDERING ∧
      (r k % 10 < 3 → (think W H r npc pp dt k).1.target = spawnPos W H r (k + 1)) ∧
      (¬ r k % 10 < 3 → (think W H r npc pp dt k).1.target = npc.target)) := by
  refine ⟨?_, ?_, ?_⟩
  · intro hd
    simp only [think]
    rw [if_pos hfire, if_pos hd]
    exact ⟨rfl, rfl⟩
  · intro hd3 hd5
    simp only [think]
    rw [if_pos hfire, if_neg (not_lt.mpr hd3), if_pos hd5]
    exact ⟨rfl, rfl⟩
  · intro hd5
    have hn3 : ¬ vdist npc.position pp < 3 :=
      not_lt.mpr (le_trans (by norm_num) hd5)
    simp only [think]
    rw [if_pos hfire, if_neg hn3, if_neg (not_lt.mpr hd5)]
    refine ⟨?_, ?_, ?_⟩
    · by_cases hr : r k % 10 < 3
      · rw [if_pos hr]
      · rw [if_neg hr]
    · intro hr
      rw [if_pos hr]
    · intro hr
      rw [if_neg hr]

/-- Concrete NPC of the C4 scenario: at `(2,0,0)` with the player at the
origin. -/
noncomputable def npcC4 : NPC := ⟨⟨2, 0, 0⟩, ⟨0, 0, 0⟩, 2, 0, NState.WANDERING⟩

/-- Witness for C4: the spec scenario — NPC at `(2,0,0)`, player at
`(0,0,0)`, distance `2 < 3`, so the think tick flees to `(4,0,0)`. -/
theorem C4_think_transitions_witness :
    (npcC4.thinkTimer + 1 > 1 / 2) ∧ vdist npcC4.position ⟨0, 0, 0⟩ < 3 ∧
    (think 20 20 (fun _ => 0) npcC4 ⟨0, 0, 0⟩ 1 0).1.state = NState.FLEEING ∧
    (think 20 20 (fun _ => 0) npcC4 ⟨0, 0, 0⟩ 1 0).1.target = ⟨4, 0, 0⟩ := by
  have hfire : npcC4.thinkTimer + (1 : ℝ) > 1 / 2 := by
    simp only [npcC4]
    norm_num
  have hd : vdist npcC4.position ⟨0, 0, 0⟩ = 2 := by
    simp only [vdist, npcC4]
    norm_num [sqrt_four]
  have h3 : vdist npcC4.position ⟨0, 0, 0⟩ < 3 := by
    rw [hd]
    norm_num
  have happ := (C4_think_transitions 20 20 (fun _ => 0) npcC4 ⟨0, 0, 0⟩ 1 0 hfire).1 h3
  refine ⟨hfire, h3, happ.1, ?_⟩
  rw [happ.2]
  have hsub : vsub npcC4.position ⟨0, 0, 0⟩ = ⟨2, 0, 0⟩ := by
    simp only [vsub, npcC4]
    norm_num
  have hnorm : vnormalize ⟨2, 0, 0⟩ = (⟨1, 0, 0⟩ : Vec3 ℝ) := by
    unfold vnormalize vlen
    rw [if_neg ?hne]
    · simp only [vscale]
      norm_num [sqrt_four]
    case hne =>
      norm_num [sqrt_four]
  rw [hsub, hnorm]
  simp only [vadd, vscale, npcC4]
  norm_num

end MazeR

namespace MazeR

/-- Unfolding of `CheckWallCollision` once the cell index is known and in
bounds. -/
theorem checkWallCollision_eval {α : Type} [LinearOrderedField α] [FloorRing α]
    (W H : ℕ) (w : Walls) (p : Vec3 α) {cx cy : ℤ}
    (hcx : truncInt ((p.x + 1 / 2) / 1) = cx) (hcy : truncInt ((p.z + 1 / 2) / 1) = cy)
    (hin : inB W H (cx, cy)) :
    checkWallCollision W H w p =
      (if w (cx, cy) 0 = true ∧ p.z - ((cy : α) * 1 - 1 / 2) > 1 - 3 / 20 then true
       else if w (cx, cy) 1 = true ∧ p.x - ((cx : α) * 1 - 1 / 2) > 1 - 3 / 20 then true
       else if w (cx, cy) 2 = true ∧ p.z - ((cy : α) * 1 - 1 / 2) < 3 / 20 then true
       else if w (cx, cy) 3 = true ∧ p.x - ((cx : α) * 1 - 1 / 2) < 3 / 20 then true
       else false) := by
  simp only [checkWallCollision, hcx, hcy, getCell, if_pos hin]

/-- The NPC configuration shared by the blocked-movement scenarios: at the
centre of cell `(0,0)`, heading for `(3, 1/4, 4)` (direction `(3,0,4)` of
length 5). -/
noncomputable def npcBlocked : NPC := ⟨⟨0, 1 / 4, 0⟩, ⟨3, 1 / 4, 4⟩, 2, 0, NState.WANDERING⟩

theorem npcBlocked_dir : vsub npcBlocked.target npcBlocked.position = ⟨3, 0, 4⟩ := by
  simp only [vsub, npcBlocked]
  norm_num

theorem vlen_345 : vlen ⟨3, 0, 4⟩ = 5 := by
  unfold vlen
  norm_num [sqrt_twentyfive]

theorem vnormalize_345 : vnormalize ⟨3, 0, 4⟩ = (⟨3 / 5, 0, 4 / 5⟩ : Vec3 ℝ) := by
  unfold vnormalize
  rw [vlen_345, if_neg (by norm_num)]
  simp only [vscale]
  norm_num

theorem npcBlocked_move :
    vscale (vnormalize (vsub npcBlocked.target npcBlocked.position))
      (npcBlocked.speed * (1 / 4)) = (⟨3 / 10, 0, 2 / 5⟩ : Vec3 ℝ) := by
  rw [npcBlocked_dir, vnormalize_345]
  simp only [vscale, npcBlocked]
  norm_num

theorem npcBlocked_newPos :
    vadd npcBlocked.position
      (vscale (vnormalize (vsub npcBlocked.target npcBlocked.position))
        (npcBlocked.speed * (1 / 4))) = (⟨3 / 10, 1 / 4, 2 / 5⟩ : Vec3 ℝ) := by
  rw [npcBlocked_move]
  simp only [vadd, npcBlocked]
  norm_num

theorem collision_blocked_eval :
    checkWallCollision 20 20 initState.walls (⟨3 / 10, 1 / 4, 2 / 5⟩ : Vec3 ℝ) = true := by
  rw [checkWallCollision_eval 20 20 initState.walls ⟨3 / 10, 1 / 4, 2 / 5⟩
    (truncInt_eq_zero (by norm_num) (by norm_num))
    (truncInt_eq_zero (by norm_num) (by norm_num)) (by decide)]
  rw [if_pos ⟨rfl, by norm_num⟩]

theorem collision_xonly_eval :
    checkWallCollision 20 20 initState.walls (⟨3 / 10, 1 / 4, 0⟩ : Vec3 ℝ) = false := by
  rw [checkWallCollision_eval 20 20 initState.walls ⟨3 / 10, 1 / 4, 0⟩
    (truncInt_eq_zero (by norm_num) (by norm_num))
    (truncInt_eq_zero (by norm_num) (by norm_num)) (by decide)]
  rw [if_neg ?h1, if_neg ?h2, if_neg ?h3, if_neg ?h4]
  case h1 =>
    rintro ⟨-, h⟩
    norm_num at h
  case h2 =>
    rintro ⟨-, h⟩
    norm_num at h
  case h3 =>
    rintro ⟨-, h⟩
    norm_num at h
  case h4 =>
    rintro ⟨-, h⟩
    norm_num at h

theorem npcBlocked_dist :
    vlen (vsub npcBlocked.target npcBlocked.position) > 1 / 10 := by
  rw [npcBlocked_dir, vlen_345]
  norm_num

theorem npcBlocked_hit :
    checkWallCollision 20 20 initState.walls
      (vadd npcBlocked.position
        (vscale (vnormalize (vsub npcBlocked.target npcBlocked.position))
          (npcBlocked.speed * (1 / 4)))) = true := by
  rw [npcBlocked_newPos]
  exact collision_blocked_eval

/-- The blocked branch of `NPC::Update`, fully evaluated. -/
theorem update_blocked_eval (W H : ℕ) (r : ℕ → ℕ) (w : Walls) (npc : NPC) (dt : ℝ) (k : ℕ)
    (hdist : vlen (vsub npc.target npc.position) > 1 / 10)
    (hblock : checkWallCollision W H w
      (vadd npc.position (vscale (vnormalize (vsub npc.target npc.position))
        (npc.speed * dt))) = true) :
    update W H r w npc dt k = ({ npc with target := spawnPos W H r k }, k + 2) := by
  simp only [update]
  rw [if_pos hdist, if_neg (by simp [hblock])]

/-- The free branch of `NPC::Update`, fully evaluated. -/
theorem update_free_eval (W H : ℕ) (r : ℕ → ℕ) (w : Walls) (npc : NPC) (dt : ℝ) (k : ℕ)
    (hdist : vlen (vsub npc.target npc.position) > 1 / 10)
    (hfree : checkWallCollision W H w
      (vadd npc.position (vscale (vnormalize (vsub npc.target npc.position))
        (npc.speed * dt))) = false) :
    update W H r w npc dt k =
      ({ npc with
          position := vadd npc.position
            (vscale (vnormalize (vsub npc.target npc.position)) (npc.speed * dt)) }, k) := by
  simp only [update]
  rw [if_pos hdist, if_pos hfree]

end MazeR

namespace MazeR

/-- **C10**: on an `Update` call whose attempted move is rejected by the
collision check, the NPC's position, behaviour state, think timer (and speed)
are unchanged; only the target is modified, set to the freshly drawn random
spawn point. -/
theorem C10_update_blocked_frame (W H : ℕ) (r : ℕ → ℕ) (w : Walls) (npc : NPC)
    (dt : ℝ) (k : ℕ)
    (hdist : vlen (vsub npc.target npc.position) > 1 / 10)
    (hblock : checkWallCollision W H w
      (vadd npc.position (vscale (vnormalize (vsub npc.target npc.position))
        (npc.speed * dt))) = true) :
    (update W H r w npc dt k).1.position = npc.position ∧
    (update W H r w npc dt k).1.state = npc.state ∧
    (update W H r w npc dt k).1.thinkTimer = npc.thinkTimer ∧
    (update W H r w npc dt k).1.speed = npc.speed ∧
    (update W H r w npc dt k).1.target = spawnPos W H r k := by
  rw [update_blocked_eval W H r w npc dt k hdist hblock]
  exact ⟨rfl, rfl, rfl, rfl, rfl⟩

/-- Witness for C10: the concrete blocked NPC `npcBlocked` on the freshly
initialised (all-walls) maze with `dt = 1/4`. -/
theorem C10_update_blocked_frame_witness :
    (vlen (vsub npcBlocked.target npcBlocked.position) > 1 / 10) ∧
    (checkWallCollision 20 20 initState.walls
      (vadd npcBlocked.position (vscale (vnormalize (vsub npcBlocked.target npcBlocked.position))
        (npcBlocked.speed * (1 / 4)))) = true) ∧
    ((update 20 20 (fun _ => 0) initState.walls npcBlocked (1 / 4) 0).1.position =
        npcBlocked.position ∧
      (update 20 20 (fun _ => 0) initState.walls npcBlocked (1 / 4) 0).1.state =
        npcBlocked.state ∧
      (update 20 20 (fun _ => 0) initState.walls npcBlocked (1 / 4) 0).1.thinkTimer =
        npcBlocked.thinkTimer ∧
      (update 20 20 (fun _ => 0) initState.walls npcBlocked (1 / 4) 0).1.speed =
        npcBlocked.speed ∧
      (update 20 20 (fun _ => 0) initState.walls npcBlocked (1 / 4) 0).1.target =
        spawnPos 20 20 (fun _ => 0) 0) :=
  ⟨npcBlocked_dist, npcBlocked_hit,
    C10_update_blocked_frame 20 20 (fun _ => 0) initState.walls npcBlocked (1 / 4) 0
      npcBlocked_dist npcBlocked_hit⟩

/-- **C3, counterexample**: the NPC does *not* move per-axis.  With
`npcBlocked` and `dt = 1/4` on the all-walls maze, the x-only candidate
position is not blocked, and the x-displacement is nonzero; the spec-claimed
per-axis policy would commit the x move and keep the target, yet the code
leaves the position entirely unchanged and abandons the target — although
only the combined (and z) direction is blocked, not both axes. -/
theorem C3_counterexample :
    vlen (vsub npcBlocked.target npcBlocked.position) > 1 / 10 ∧
    checkWallCollision 20 20 initState.walls
      (⟨npcBlocked.position.x +
          (vscale (vnormalize (vsub npcBlocked.target npcBlocked.position))
            (npcBlocked.speed * (1 / 4))).x,
        npcBlocked.position.y, npcBlocked.position.z⟩ : Vec3 ℝ) = false ∧
    (vscale (vnormalize (vsub npcBlocked.target npcBlocked.position))
        (npcBlocked.speed * (1 / 4))).x ≠ 0 ∧
    (update 20 20 (fun _ => 0) initState.walls npcBlocked (1 / 4) 0).1.position =
      npcBlocked.position ∧
    (update 20 20 (fun _ => 0) initState.walls npcBlocked (1 / 4) 0).1.target ≠
      npcBlocked.target := by
  have hxc : (⟨npcBlocked.position.x +
      (vscale (vnormalize (vsub npcBlocked.target npcBlocked.position))
        (npcBlocked.speed * (1 / 4))).x,
      npcBlocked.position.y, npcBlocked.position.z⟩ : Vec3 ℝ) = ⟨3 / 10, 1 / 4, 0⟩ := by
    rw [npcBlocked_move]
    simp only [npcBlocked]
    norm_num
  have hupd := update_blocked_eval 20 20 (fun _ => 0) initState.walls npcBlocked (1 / 4) 0
    npcBlocked_dist npcBlocked_hit
  have hsp : spawnPos 20 20 (fun _ => 0) 0 = (⟨0, 1 / 4, 0⟩ : Vec3 ℝ) := by
    simp only [spawnPos]
    norm_num
  refine ⟨npcBlocked_dist, ?_, ?_, ?_, ?_⟩
  · rw [hxc]
    exact collision_xonly_eval
  · rw [npcBlocked_move]
    norm_num
  · rw [hupd]
  · rw [hupd]
    show spawnPos 20 20 (fun _ => 0) 0 ≠ npcBlocked.target
    rw [hsp]
    simp only [npcBlocked]
    intro h
    rw [Vec3.mk.injEq] at h
    norm_num at h

/-- **C3, amended**: for every `Update` tick whose target lies more than 0.1
away, the NPC resolves its horizontal movement with a *single combined*
collision test of the full new position (unlike the player's per-axis
resolution): if the combined position is free it is committed and the target
kept; if it is blocked — even on one axis only — the NPC stays put and
immediately acquires a fresh random spawn point as target. -/
theorem C3_update_not_per_axis (W H : ℕ) (r : ℕ → ℕ) (w : Walls) (npc : NPC)
    (dt : ℝ) (k : ℕ)
    (hdist : vlen (vsub npc.target npc.position) > 1 / 10) :
    (checkWallCollision W H w
        (vadd npc.position (vscale (vnormalize (vsub npc.target npc.position))
          (npc.speed * dt))) = false →
      (update W H r w npc dt k).1.position =
        vadd npc.position (vscale (vnormalize (vsub npc.target npc.position))
          (npc.speed * dt)) ∧
      (update W H r w npc dt k).1.target = npc.target) ∧
    (checkWallCollision W H w
        (vadd npc.position (vscale (vnormalize (vsub npc.target npc.position))
          (npc.speed * dt))) = true →
      (update W H r w npc dt k).1.position = npc.position ∧
      (update W H r w npc dt k).1.target = spawnPos W H r k) := by
  constructor
  · intro hfree
    rw [update_free_eval W H r w npc dt k hdist hfree]
    exact ⟨rfl, rfl⟩
  · intro hblock
    rw [update_blocked_eval W H r w npc dt k hdist hblock]
    exact ⟨rfl, rfl⟩

/-- Witness for the amended C3, at the concrete blocked configuration. -/
theorem C3_update_not_per_axis_witness :
    (vlen (vsub npcBlocked.target npcBlocked.position) > 1 / 10) ∧
    (checkWallCollision 20 20 initState.walls
        (vadd npcBlocked.position
          (vscale (vnormalize (vsub npcBlocked.target npcBlocked.position))
            (npcBlocked.speed * (1 / 4)))) = true) ∧
    ((update 20 20 (fun _ => 0) initState.walls npcBlocked (1 / 4) 0).1.position =
        npcBlocked.position ∧
      (update 20 20 (fun _ => 0) initState.walls npcBlocked (1 / 4) 0).1.target =
        spawnPos 20 20 (fun _ => 0) 0) :=
  ⟨npcBlocked_dist, npcBlocked_hit,
    (C3_update_not_per_axis 20 20 (fun _ => 0) initState.walls npcBlocked (1 / 4) 0
      npcBlocked_dist).2 npcBlocked_hit⟩

end MazeR

namespace MazeR

/-- RNG stream realising neighbour picks East, East, South on a 4×4 grid. -/
def r7 : ℕ → ℕ := fun k => if k = 2 then 0 else 1

/-- **C7, counterexample**: on a 4×4 grid with a stream whose first three
neighbour picks are East (`(1,0)`), East (`(2,0)`), South (`(2,1)`, the
`y+1` side, drawn downward on the minimap), the stack after those three
steps holds 4 entries — the initial push of `(0,0)` plus one push of the
current cell per move — not 1 as the claim states. -/
theorem C7_counterexample :
    (step 4 4 r7 initState).cur = ((1 : ℤ), (0 : ℤ)) ∧
    (step 4 4 r7 (step 4 4 r7 initState)).cur = ((2 : ℤ), (0 : ℤ)) ∧
    (step 4 4 r7 (step 4 4 r7 (step 4 4 r7 initState))).cur = ((2 : ℤ), (1 : ℤ)) ∧
    (step 4 4 r7 (step 4 4 r7 (step 4 4 r7 initState))).stack.length = 4 ∧
    ¬ (step 4 4 r7 (step 4 4 r7 (step 4 4 r7 initState))).stack.length = 1 := by
  decide

/-- **C7, amended**: each time an unvisited neighbour is selected, the
*current* cell (not the neighbour) is pushed before `current` moves to the
neighbour; consequently, on the 4×4 grid with first picks East, East, South,
the stack depth after those three steps is 4 (the initial start-cell push
plus three per-move pushes). -/
theorem C7_push_current_depth :
    (∀ (W H : ℕ) (r : ℕ → ℕ) (s : GenState) (a : Pos) (as : List Pos),
      unvisitedNeighbours W H s.visited s.cur = a :: as →
      (step W H r s).stack = s.cur :: s.stack ∧ (step W H r s).cur = pick r s.k a as) ∧
    (step 4 4 r7 (step 4 4 r7 (step 4 4 r7 initState))).stack.length = 4 := by
  constructor
  · intro W H r s a as h
    rw [step_move r h]
    exact ⟨rfl, rfl⟩
  · decide

/-- Witness for the amended C7, at the first move of the 4×4 scenario. -/
theorem C7_push_current_depth_witness :
    (unvisitedNeighbours 4 4 initState.visited initState.cur =
      [((0 : ℤ), (1 : ℤ)), ((1 : ℤ), (0 : ℤ))]) ∧
    ((step 4 4 r7 initState).stack = initState.cur :: initState.stack ∧
      (step 4 4 r7 initState).cur =
        pick r7 initState.k ((0 : ℤ), (1 : ℤ)) [((1 : ℤ), (0 : ℤ))]) :=
  ⟨by decide, C7_push_current_depth.1 4 4 r7 initState _ _ (by decide)⟩

/-- RNG stream under which a prior spawn call changes the generated maze. -/
def r6 : ℕ → ℕ := fun k => if k = 0 then 1 else 0

/-- **C6, counterexample**: `GetRandomSpawnPosition` draws from the same
global `rand()` stream as generation, so it is *not* independent of the
generation RNG: the spawn result changes after two draws have been consumed,
and on a 2×2 grid running one spawn call (two draws) before `Generate`
changes the wall configuration `Generate` produces (the East wall of `(0,0)`
is opened in the fresh run but stays closed in the shifted run). -/
theorem C6_counterexample :
    spawnPos (α := ℚ) 20 20 (fun k => k) 0 ≠ spawnPos (α := ℚ) 20 20 (fun k => k) 2 ∧
    (generate 2 2 r6).walls ((0 : ℤ), (0 : ℤ)) 1 = false ∧
    (generateLoop 2 2 r6 (2 * 2 * 2)
      { initState with k := 2 }).walls ((0 : ℤ), (0 : ℤ)) 1 = true := by
  refine ⟨?_, by decide, by decide⟩
  intro h
  rw [spawnPos, spawnPos, Vec3.mk.injEq] at h
  norm_num at h

/-- **C6, amended**: every `GetRandomSpawnPosition` call returns the
world-coordinate centre `(x*CELL_SIZE, PLAYER_HEIGHT/2, y*CELL_SIZE)` of an
in-bounds cell `(x, y)`, where `x` and `y` are the next two draws of the
single global `rand()` stream (reduced mod `W` and `H`) — the same stream
generation consumes. -/
theorem C6_spawn_shared_stream {α : Type} [LinearOrderedField α]
    (W H : ℕ) (r : ℕ → ℕ) (k : ℕ) (hW : 0 < W) (hH : 0 < H) :
    ∃ x y : ℕ, x < W ∧ y < H ∧ x = r k % W ∧ y = r (k + 1) % H ∧
      spawnPos (α := α) W H r k = ⟨(x : α) * 1, (1 / 2) / 2, (y : α) * 1⟩ :=
  ⟨r k % W, r (k + 1) % H, Nat.mod_lt _ hW, Nat.mod_lt _ hH, rfl, rfl, rfl⟩

/-- Witness for the amended C6 on the 20×20 grid with the zero stream. -/
theorem C6_spawn_shared_stream_witness :
    (0 < 20) ∧ (0 < 20) ∧
    (∃ x y : ℕ, x < 20 ∧ y < 20 ∧ x = (fun _ : ℕ => 0) 0 % 20 ∧
      y = (fun _ : ℕ => 0) (0 + 1) % 20 ∧
      spawnPos (α := ℚ) 20 20 (fun _ => 0) 0 = ⟨(x : ℚ) * 1, (1 / 2) / 2, (y : ℚ) * 1⟩) :=
  ⟨by decide, by decide,
    C6_spawn_shared_stream 20 20 (fun _ => 0) 0 (by decide) (by decide)⟩

end MazeR
